import Mathlib

/-!
# delaunay_linterp: the Python binding layer `delaunay_2_python.cpp`

A shallow embedding of the marshalling code of `src/delaunay_2_python.cpp`
(Boost.Python converters between host values and the native `Point`,
`ErrorTuple`, sequences and the `Bounded_side` enumeration, and the wrapper
class that binds a host callback), followed by the properties proved about it.

Conventions of the embedding:

* a host (Python) value is a term of `PyObj`;
* a C++ `double` is carried as its IEEE-754 bit pattern (`Double`); the
  binding performs no floating-point arithmetic, values are only moved;
* the exact number type `RT` and the helpers `RT(x)` / `RT_to_double` come
  from `delaunay_2_interp.h` and CGAL, which are outside this file: the
  converters take them as parameters (`NumKernel`), and `exactKernel` is the
  number layer that the specification describes (exact rationals);
* the interpolation core itself (`delaunay_2_interp.h`) is not among the
  sources; what is said about `interp` is said of definitions that follow the
  specification, over exact rationals;
* a C++ function that can raise a Python exception returns `Res`.
-/

namespace DelaunayPy

/-! ## Host values -/

/-- A C++ `double` / the payload of a Python `float`, as its 64-bit pattern. -/
structure Double where
  bits : Nat
deriving DecidableEq, Repr

/-- The double `0.0`. -/
def Double.zero : Double := ⟨0⟩
/-- The double `1.0`. -/
def Double.one : Double := ⟨0x3FF0000000000000⟩
/-- The double `2.0`. -/
def Double.two : Double := ⟨0x4000000000000000⟩
/-- The double `3.0`. -/
def Double.three : Double := ⟨0x4008000000000000⟩

/-- Host values that can reach the converters. -/
inductive PyObj where
  | none
  | int (n : Int)
  | float (d : Double)
  | str (s : String)
  | tuple (items : List PyObj)
  | list (items : List PyObj)
deriving Repr

/-- Python exceptions that this layer can set or let through. -/
inductive PyErr where
  | ValueError (msg : String)
  | TypeError
  | OverflowError
deriving DecidableEq, Repr

/-- Result of running a piece of the C++ code. -/
inductive Res (α : Type) where
  /-- normal return -/
  | ok (v : α)
  /-- a Python error was set and `error_already_set` thrown -/
  | raised (e : PyErr)
  /-- a read outside the bounds of a `std::vector` or C array -/
  | undefined
deriving DecidableEq, Repr

/-- The host test `PyList_Check`. -/
def PyList_Check : PyObj → Bool
  | .list _ => true
  | _ => false

/-- The host test `PyFloat_Check`. -/
def PyFloat_Check : PyObj → Bool
  | .float _ => true
  | _ => false

/-- The constructor `bpl::list l(h)`: Boost.Python calls the host `list(obj)`, which copies a
list, lists the items of a tuple or the characters of a string, and raises
`TypeError` on a value that is not iterable. -/
def bpl_list : PyObj → Res (List PyObj)
  | .list items => .ok items
  | .tuple items => .ok items
  | .str s => .ok (s.toList.map (fun c => PyObj.str (String.singleton c)))
  | _ => .raised .TypeError

/-! ## Numbers -/

/-- The host conversion of an `int` to a double (`PyLong_AsDouble`, reached
through the `nb_float` slot): the nearest double, ties to even, as a bit
pattern; `none` stands for the `OverflowError` of an integer too large for a
double. -/
def PyLong_AsDouble (n : Int) : Option Double :=
  let m := n.natAbs
  if m = 0 then some ⟨0⟩
  else
    let sign := if n < 0 then 2 ^ 63 else 0
    let e := Nat.log2 m
    if e ≤ 52 then
      some ⟨sign + (e + 1023) * 2 ^ 52 + (m * 2 ^ (52 - e) - 2 ^ 52)⟩
    else
      let shift := e - 52
      let q := m / 2 ^ shift
      let r := m % 2 ^ shift
      let half := 2 ^ (shift - 1)
      let q1 := if half < r ∨ (r = half ∧ q % 2 = 1) then q + 1 else q
      let e1 := if q1 = 2 ^ 53 then e + 1 else e
      let frac := if q1 = 2 ^ 53 then 0 else q1 - 2 ^ 52
      if 1024 ≤ e1 then Option.none
      else some ⟨sign + (e1 + 1023) * 2 ^ 52 + frac⟩

/-- The operations on exact numbers that the binding uses but does not define:
`RT(x)`, the CGAL `Lazy_exact_nt<Gmpq>` built from a double, and `RT_to_double`
of `delaunay_2_interp.h`. -/
structure NumKernel (RT : Type) where
  RT_of_double : Double → RT
  RT_to_double : RT → Double

/-- The extraction `bpl::extract<double>(obj)`: a `float` gives its payload, an
`int` is converted by the host, anything else raises `TypeError`. -/
def extract_double : PyObj → Res Double
  | .float d => .ok d
  | .int n =>
    match PyLong_AsDouble n with
    | some d => .ok d
    | Option.none => .raised .OverflowError
  | _ => .raised .TypeError

/-! ## Point -/

/-- Modelled from the spec: the type `Point` is declared in `delaunay_2_interp.h`
(not in src/); "Point: ordered pair of exact coordinates (x, y)". It is built
as `Point(coords[0], coords[1])`, has `dimension() = 2` and is indexed by
`x[0]`, `x[1]`. -/
structure Point (RT : Type) where
  x : RT
  y : RT
deriving DecidableEq, Repr

/-- The member `Point::dimension()`: always 2 for the planar point. -/
def Point.dimension {RT : Type} (_ : Point RT) : Nat := 2

/-- The member `Point::operator[]`, whose precondition is an index below the
dimension: `x[0]` is the first coordinate, `x[1]` the second. -/
def Point.coord {RT : Type} (p : Point RT) (i : Nat) : RT :=
  if i = 0 then p.x else p.y

/-! ## `Point_from_python_list<N>` -/

/-- The loop of `check`: every element must pass `PyFloat_Check`; the first
one that does not makes `check` return `NULL`. -/
def Point_from_python_list.check_loop : List PyObj → Bool
  | [] => true
  | obj :: rest =>
    if !PyFloat_Check obj then false else Point_from_python_list.check_loop rest

/-- The function `Point_from_python_list<N>::check`; `true` stands for the non-`NULL`
return `pObj`, `false` for `NULL`. -/
def Point_from_python_list.check (N : Nat) (pObj : PyObj) : Bool :=
  if !PyList_Check pObj then
    false
  else
    match bpl_list pObj with
    | .ok l =>
      if l.length ≠ N then false
      else Point_from_python_list.check_loop l
    -- not reached: copying a list cannot fail
    | _ => false

/-- The copy loop of `construct`: `coords[i] = extract<double>(l[i])` for
`i = 0 .. len-1`; the first failing extraction propagates. -/
def Point_from_python_list.copy_loop {RT : Type} (K : NumKernel RT) :
    List PyObj → Res (List RT)
  | [] => .ok []
  | obj :: rest =>
    match extract_double obj with
    | .ok x =>
      match Point_from_python_list.copy_loop K rest with
      | .ok coords => .ok (K.RT_of_double x :: coords)
      | .raised e => .raised e
      | .undefined => .undefined
    | .raised e => .raised e
    | .undefined => .undefined

/-- The function `Point_from_python_list<N>::construct`; `ok p` stands for `p` having been
placed in the converter storage and `data->convertible` set. -/
def Point_from_python_list.construct {RT : Type} (K : NumKernel RT) (N : Nat)
    (pObj : PyObj) : Res (Point RT) :=
  match bpl_list pObj with
  | .ok l =>
    if l.length ≠ N then .raised (.ValueError "must be length N")
    else
      match Point_from_python_list.copy_loop K l with
      | .ok coords =>
        match coords.get? 0, coords.get? 1 with
        | some c0, some c1 => .ok ⟨c0, c1⟩
        | _, _ => .undefined
      | .raised e => .raised e
      | .undefined => .undefined
  | .raised e => .raised e
  | .undefined => .undefined

/-- What the Boost.Python registry does with a converter registered by
`registry::push_back(&check, &construct, type_id<Point>())`. -/
inductive FromPython (α : Type) where
  /-- The function `check` returned `NULL`: the converter does not apply, `construct` is
  not run and this file sets no Python error (Boost.Python then reports the
  call as an argument-type mismatch) -/
  | notConvertible
  /-- The function `check` returned the object and `construct` was run -/
  | constructed (r : Res α)
deriving DecidableEq, Repr

/-- The registered converter `Point_from_python_list<2>`: `check`, then
`construct` when `check` did not return `NULL`. -/
def Point_from_python {RT : Type} (K : NumKernel RT) (pObj : PyObj) :
    FromPython (Point RT) :=
  if Point_from_python_list.check 2 pObj then
    .constructed (Point_from_python_list.construct K 2 pObj)
  else
    .notConvertible

/-! ## Converters to the host -/

/-- The converter `Point_to_list::convert`: `result.append(RT_to_double(x[i]))`
for `i = 0 .. n_dims-1`, where `n_dims = x.dimension()`. -/
def Point_to_list.convert {RT : Type} (K : NumKernel RT) (x : Point RT) : PyObj :=
  .list ((List.range x.dimension).foldl
    (fun result i => result ++ [PyObj.float (K.RT_to_double (x.coord i))]) [])

/-- The converter `forward_iterable_to_list<IterableT>::convert`: walks the container from
`begin()` to `end()` and appends the host conversion `toPy` of each element. -/
def forward_iterable_to_list.convert {α : Type} (toPy : α → PyObj) (cont : List α) : PyObj :=
  .list (cont.foldl (fun result x => result ++ [toPy x]) [])

/-- Modelled from the spec: the struct `ErrorTuple` is declared in
`delaunay_2_interp.h` (not in src/); "ErrorTuple: (error_magnitude: double,
reference_value: double, representative_point: Point)", with the field names
`m_err`, `m_f`, `m_x` that `ErrorTuple_to_python::convert` reads. -/
structure ErrorTuple (RT : Type) where
  m_err : Double
  m_f : Double
  m_x : Point RT
deriving DecidableEq, Repr

/-- The converter `ErrorTuple_to_python::convert`: `bpl::make_tuple(arg.m_err, arg.m_f, arg.m_x)`;
the doubles become host floats and the point goes through the registered
`Point_to_list`. -/
def ErrorTuple_to_python.convert {RT : Type} (K : NumKernel RT) (arg : ErrorTuple RT) : PyObj :=
  .tuple [.float arg.m_err, .float arg.m_f, Point_to_list.convert K arg.m_x]

/-! ## `coords_to_point` -/

/-- The type `dPyArr`, a `pyublas::numpy_vector<double>`: its shape and its elements
in order. -/
structure dPyArr where
  dims : List Nat
  data : List Double
deriving DecidableEq, Repr

/-- The member `x.ndim()`. -/
def dPyArr.ndim (x : dPyArr) : Nat := x.dims.length

/-- The element `x.sub(i)` of a one-dimensional array; `none` outside the data. -/
def dPyArr.sub (x : dPyArr) (i : Nat) : Option Double := x.data.get? i

/-- The loop of `coords_to_point`: `coords[i] = RT(x.sub(i))`, run for the
`k` indices starting at `i`. -/
def coords_to_point.loop {RT : Type} (K : NumKernel RT) (x : dPyArr) : Nat → Nat → Res (List RT)
  | 0, _ => .ok []
  | k + 1, i =>
    match x.sub i with
    | some d =>
      match coords_to_point.loop K x k (i + 1) with
      | .ok coords => .ok (K.RT_of_double d :: coords)
      | .raised e => .raised e
      | .undefined => .undefined
    | Option.none => .undefined

/-- The function `coords_to_point`; the length `x.dims()[0]` is taken to fit the
`int` it is stored in. -/
def coords_to_point {RT : Type} (K : NumKernel RT) (x : dPyArr) : Res (Point RT) :=
  if x.ndim ≠ 1 then .raised (.ValueError "x should have dimension 1")
  else
    match x.dims.get? 0 with
    | some n_dims =>
      match coords_to_point.loop K x n_dims 0 with
      | .ok coords =>
        match coords.get? 0, coords.get? 1 with
        | some c0, some c1 => .ok ⟨c0, c1⟩
        | _, _ => .undefined
      | .raised e => .raised e
      | .undefined => .undefined
    | Option.none => .undefined

/-! ## The wrapper class and the host callback -/

/-- A host callable: applied to its argument object it returns an object or
raises. -/
abbrev PyCallable := PyObj → Res PyObj

/-- What can be passed as the constructor argument `fn`: a plain host value
(among them `None`) or a callable. -/
inductive HostObj where
  | value (o : PyObj)
  | callable (f : PyCallable)

/-- The test `fn != bpl::object()`: `fn` is compared with `None`. -/
def HostObj.ne_None : HostObj → Bool
  | .value .none => false
  | _ => true

/-- A run of code that may call into the host: the argument object of every
call made to the host callable, in order, and the result. -/
structure Traced (α : Type) where
  calls : List PyObj
  result : Res α

/-- The loop of `call_python_fn`: `args.append(args_begin[i])`, run for the
`k` indices starting at `i`; reading past the array is undefined. -/
def call_python_fn.loop (args_begin : List Double) : Nat → Nat → Res (List PyObj)
  | 0, _ => .ok []
  | k + 1, i =>
    match args_begin.get? i with
    | some d =>
      match call_python_fn.loop args_begin k (i + 1) with
      | .ok args => .ok (PyObj.float d :: args)
      | .raised e => .raised e
      | .undefined => .undefined
    | Option.none => .undefined

/-- The member `Delaunay_incremental_interp_2_wrap::call_python_fn`, given the member
`m_fn_obj`; `args_begin` is the array the pointer refers to. The loop
`for (int i=0; i<n_args; i++)` runs `n_args` times, not at all when `n_args` is
negative. -/
def call_python_fn (m_fn_obj : HostObj) (n_args : Int) (args_begin : List Double) :
    Traced Double :=
  match call_python_fn.loop args_begin n_args.toNat 0 with
  | .ok args =>
    match m_fn_obj with
    | .callable f =>
      match f (.list args) with
      | .ok result => ⟨[.list args], extract_double result⟩
      | .raised e => ⟨[.list args], .raised e⟩
      | .undefined => ⟨[.list args], .undefined⟩
    | .value _ => ⟨[], .raised .TypeError⟩
  | .raised e => ⟨[], .raised e⟩
  | .undefined => ⟨[], .undefined⟩

/-- The part of `Delaunay_incremental_interp_2_wrap` that its constructor
sets: the value function `m_fn` of the base class (unset when `none`) and
the host object `m_fn_obj`. -/
structure Delaunay_incremental_interp_2_wrap where
  m_fn : Option (Int → List Double → Traced Double)
  m_fn_obj : HostObj

/-- The constructor `Delaunay_incremental_interp_2_wrap(bpl::object fn)`. -/
def Delaunay_incremental_interp_2_wrap.new (fn : HostObj) :
    Delaunay_incremental_interp_2_wrap :=
  if fn.ne_None then
    { m_fn := some (fun _n_args args_begin => call_python_fn fn 2 args_begin)
      m_fn_obj := fn }
  else
    { m_fn := Option.none
      m_fn_obj := .value .none }

/-! ## The enumeration `Bounded_side` -/

/-- The native enumeration `CGAL::Bounded_side`. -/
inductive Bounded_side where
  | ON_UNBOUNDED_SIDE
  | ON_BOUNDARY
  | ON_BOUNDED_SIDE
deriving DecidableEq, Repr

/-- The integer value of each native constant (CGAL `enum.h`). -/
def Bounded_side.toInt : Bounded_side → Int
  | .ON_UNBOUNDED_SIDE => -1
  | .ON_BOUNDARY => 0
  | .ON_BOUNDED_SIDE => 1

/-- The members registered by `bpl::enum_<CGAL::Bounded_side>("Bounded_side")`,
one entry per `.value(name, constant)`, in the order of the calls. -/
def Bounded_side_members : List (String × Bounded_side) :=
  [("ON_UNBOUNDED_SIDE", .ON_UNBOUNDED_SIDE),
   ("ON_BOUNDARY", .ON_BOUNDARY),
   ("ON_BOUNDED_SIDE", .ON_BOUNDED_SIDE)]

/-- Attribute lookup on the exposed enumeration. -/
def Bounded_side_lookup (name : String) : Option Bounded_side :=
  (Bounded_side_members.find? (fun m => m.1 == name)).map (fun m => m.2)

/-! ## The exact number layer, from the specification

The number type `RT` and `RT_to_double` are declared in `delaunay_2_interp.h`,
which is not among the sources. The specification describes the layer as an
arbitrary-precision rational type with exact coordinates and a derived scalar
conversion for output; the definitions below follow it, with the IEEE-754
reading of a bit pattern. -/

/-- The sign bit of a double. -/
def Double.signBit (d : Double) : Nat := d.bits / 2 ^ 63

/-- The 11-bit exponent field of a double. -/
def Double.expField (d : Double) : Nat := d.bits / 2 ^ 52 % 2 ^ 11

/-- The 52-bit fraction field of a double. -/
def Double.fraction (d : Double) : Nat := d.bits % 2 ^ 52

/-- A finite double: a 64-bit pattern whose exponent field is not all ones. -/
def Double.isFinite (d : Double) : Bool :=
  decide (d.bits < 2 ^ 64) && decide (d.expField < 2047)

/-- A NaN: exponent field all ones and a non-zero fraction. -/
def Double.isNaN (d : Double) : Bool :=
  decide (d.expField = 2047) && decide (d.fraction ≠ 0)

/-- The integer significand of a finite double: the fraction, with the hidden
bit unless the number is subnormal. -/
def Double.significand (d : Double) : Nat :=
  if d.expField = 0 then d.fraction else 2 ^ 52 + d.fraction

/-- The power of two that scales the integer significand. -/
def Double.exponent (d : Double) : Int := (max d.expField 1 : Nat) - 1075

/-- The rational number that a finite double denotes. -/
def Double.toRat (d : Double) : ℚ :=
  (if d.signBit = 1 then -1 else 1) * (d.significand : ℚ) * (2 : ℚ) ^ d.exponent

/-- The host comparison `==` of two floats: a NaN equals nothing, two finite
doubles are equal when they denote the same number (so `-0.0 == 0.0`), and an
infinity equals only itself. -/
def float_eq (a b : Double) : Bool :=
  !a.isNaN && !b.isNaN &&
    (if a.isFinite && b.isFinite then decide (a.toRat = b.toRat) else a.bits == b.bits)

/-- Rounding of a non-negative rational to the nearest natural number, ties to
the even one. -/
def roundHalfEven (s : ℚ) : Nat :=
  if 1 / 2 < s - (⌊s⌋₊ : ℚ) ∨ (s - (⌊s⌋₊ : ℚ) = 1 / 2 ∧ ⌊s⌋₊ % 2 = 1) then ⌊s⌋₊ + 1 else ⌊s⌋₊

/-- The exponent of the unit in the last place of the doubles around the
positive rational `a`: 52 below its binary logarithm, and never below the
subnormal exponent. -/
def binade (a : ℚ) : Int := max (Int.log 2 a - 52) (-1074)

/-- The bit pattern for the sign, a significand of at most 53 bits and its
scale; a significand that was rounded up to 2^53 moves to the next exponent and
an exponent beyond the largest gives an infinity. -/
def encode (sign : Nat) (m : Nat) (E : Int) : Double :=
  if m = 2 ^ 53 then
    (if 971 < E + 1 then ⟨sign + 2047 * 2 ^ 52⟩ else ⟨sign + (E + 1 + 1075).toNat * 2 ^ 52⟩)
  else if 971 < E then ⟨sign + 2047 * 2 ^ 52⟩
  else if m < 2 ^ 52 then ⟨sign + m⟩
  else ⟨sign + (E + 1075).toNat * 2 ^ 52 + (m - 2 ^ 52)⟩

/-- Modelled from the spec: the number type `RT` of `delaunay_2_interp.h` (not
in src/); "arbitrary-precision rational ... arithmetic type", "exact
coordinates". -/
abbrev RT := ℚ

/-- Modelled from the spec: the construction `RT(x)` of an exact number from a
double (`delaunay_2_interp.h` and CGAL, not in src/): the rational that the
double denotes; it is meant for finite doubles. -/
def RT_of_double (x : Double) : RT := x.toRat

/-- Modelled from the spec: `RT_to_double` of `delaunay_2_interp.h` (not in
src/), the "derived scalar conversion for output": the double nearest to the
rational, ties to even. -/
def RT_to_double (q : RT) : Double :=
  if q = 0 then ⟨0⟩
  else encode (if q < 0 then 2 ^ 63 else 0)
    (roundHalfEven (|q| / (2 : ℚ) ^ binade |q|)) (binade |q|)

/-- The number layer of the specification as a `NumKernel`. -/
def exactKernel : NumKernel RT where
  RT_of_double := RT_of_double
  RT_to_double := RT_to_double

/-! ## The interpolation core, from the specification

`interp` and `insert` are bound to `Delaunay_incremental_interp_2::interp_point`
and `::insert_point`, which live in `delaunay_2_interp.h`; that header is not
among the sources, so the definitions of this section follow the
specification. Coordinates and function values are exact rationals (the
specification's exact numeric layer); rounding of the returned double is not
modelled. -/

/-- Modelled from the spec: `Vertex` of `delaunay_2_interp.h` (not in src/);
"a Point plus an associated scalar function value". -/
structure Vertex where
  p : Point ℚ
  f : ℚ
deriving DecidableEq, Repr

/-- Modelled from the spec: the triangle (face) of `delaunay_2_interp.h` (not
in src/); "an ordered triple of Vertex references forming a triangulation cell". -/
structure Face where
  v0 : Vertex
  v1 : Vertex
  v2 : Vertex
deriving DecidableEq, Repr

/-- Modelled from the spec: the state of `Delaunay_incremental_interp_2`
(`delaunay_2_interp.h`, not in src/): the inserted vertices in insertion order
and the live triangles. -/
structure Triangulation where
  vertices : List Vertex
  faces : List Face
deriving DecidableEq, Repr

/-- Modelled from the spec: the orientation predicate of the exact predicate
layer (absent from src/): twice the signed area of the triangle `a b c`. -/
def orient (a b c : Point ℚ) : ℚ :=
  (b.x - a.x) * (c.y - a.y) - (b.y - a.y) * (c.x - a.x)

/-- Modelled from the spec: the in-circle predicate of the exact predicate
layer (absent from src/): positive exactly when `d` lies strictly inside the
circumcircle of the counterclockwise triangle `a b c`. -/
def inCircle (a b c d : Point ℚ) : ℚ :=
  let ax := a.x - d.x
  let ay := a.y - d.y
  let bx := b.x - d.x
  let bY := b.y - d.y
  let cx := c.x - d.x
  let cy := c.y - d.y
  (ax * ax + ay * ay) * (bx * cy - bY * cx)
    - (bx * bx + bY * bY) * (ax * cy - ay * cx)
    + (cx * cx + cy * cy) * (ax * bY - ay * bx)

/-- Twice the signed area of a face. -/
def Face.area2 (t : Face) : ℚ := orient t.v0.p t.v1.p t.v2.p

/-- Modelled from the spec: the barycentric coordinates computed by
`interp_point` (`delaunay_2_interp.h`, not in src/): "barycentric coordinates
of the query point relative to the triangle's three vertices". -/
def barycentric (t : Face) (q : Point ℚ) : ℚ × ℚ × ℚ :=
  (orient q t.v1.p t.v2.p / t.area2,
   orient t.v0.p q t.v2.p / t.area2,
   orient t.v0.p t.v1.p q / t.area2)

/-- Modelled from the spec: the weighted combination returned by `interp_point`
(`delaunay_2_interp.h`, not in src/): "the barycentric-weighted combination of
the three vertices' function values". -/
def Face.combine (t : Face) (q : Point ℚ) : ℚ :=
  (barycentric t q).1 * t.v0.f + (barycentric t q).2.1 * t.v1.f
    + (barycentric t q).2.2 * t.v2.f

/-- Modelled from the spec: containment of the query in a triangle, as used by
the point location of `interp_point` (`delaunay_2_interp.h`, not in src/): the
triangle is not flat and no barycentric weight is negative, so points of the
boundary belong to the triangle. -/
def Face.contains (t : Face) (q : Point ℚ) : Bool :=
  decide (t.area2 ≠ 0) && decide (0 ≤ (barycentric t q).1)
    && decide (0 ≤ (barycentric t q).2.1) && decide (0 ≤ (barycentric t q).2.2)

/-- Modelled from the spec: point location of `interp_point`
(`delaunay_2_interp.h`, not in src/): "locates the triangle containing the
query point"; the first live triangle that contains it. -/
def locate (T : Triangulation) (q : Point ℚ) : Option Face :=
  T.faces.find? (fun t => t.contains q)

/-- Result of an interpolation query. -/
inductive InterpResult where
  | value (v : ℚ)
  /-- the query lies outside every triangle -/
  | domainError
deriving DecidableEq, Repr

/-- Modelled from the spec: `Delaunay_incremental_interp_2::interp_point`
(`delaunay_2_interp.h`, not in src/), exposed as `interp`: "locates the
triangle containing the query point ... returns the barycentric-weighted
combination of the three vertices' function values ... Fails with an
out-of-domain condition if the query point lies outside the convex hull". -/
def interp_point (T : Triangulation) (q : Point ℚ) : InterpResult :=
  match locate T q with
  | some t => .value (t.combine q)
  | Option.none => .domainError

/-- All pairs of a list, each taken in list order. -/
def pairs {α : Type} : List α → List (α × α)
  | [] => []
  | b :: more => more.map (fun c => (b, c)) ++ pairs more

/-- All triples of a list, each taken in list order. -/
def triples {α : Type} : List α → List (α × α × α)
  | [] => []
  | a :: rest => (pairs rest).map (fun bc => (a, bc.1, bc.2)) ++ triples rest

/-- The three vertices of a face. -/
def Face.verts (t : Face) : List Vertex := [t.v0, t.v1, t.v2]

/-- The vertex of a face at an index. -/
def Face.vert (t : Face) (i : Fin 3) : Vertex :=
  match i with
  | 0 => t.v0
  | 1 => t.v1
  | 2 => t.v2

/-- The barycentric weight of a point at the vertex of an index. -/
def Face.weight (t : Face) (i : Fin 3) (q : Point ℚ) : ℚ :=
  match i with
  | 0 => (barycentric t q).1
  | 1 => (barycentric t q).2.1
  | 2 => (barycentric t q).2.2

/-- The face with its vertices rotated by one place. -/
def Face.rot (t : Face) : Face := ⟨t.v1, t.v2, t.v0⟩

/-- The line through the edge `v0 v1` of `s` has `s` on one side and every
vertex of `t` on the other side or on the line. -/
def Face.edgeSeparates (s t : Face) : Bool :=
  t.verts.all (fun b => decide (orient s.v0.p s.v1.p b.p * s.area2 ≤ 0))

/-- The line through one of the three edges of `s` separates `s` from `t`. -/
def Face.separatedFrom (s t : Face) : Bool :=
  s.edgeSeparates t || s.rot.edgeSeparates t || s.rot.rot.edgeSeparates t

/-- Every vertex of `s` is a vertex of `t`. -/
def Face.vertsWithin (s t : Face) : Bool :=
  s.verts.all (fun a => decide (a ∈ t.verts))

/-- Modelled from the spec: two cells of one "valid ... triangulation"
(`delaunay_2_interp.h`, not in src/) do not overlap: they are the same
triangle, or the line through an edge of one of them has the two triangles on
opposite sides. -/
def compatible (s t : Face) : Bool :=
  (s.vertsWithin t && t.vertsWithin s) || s.separatedFrom t || t.separatedFrom s

/-- No vertex of the list lies in the face or on its boundary, other than its
own three vertices. -/
def vertexFree (vs : List Vertex) (t : Face) : Bool :=
  vs.all (fun v => !t.contains v.p || decide (v ∈ t.verts))

/-- Modelled from the spec: the "empty-circumcircle property" of a triangle
(`delaunay_2_interp.h`, not in src/): no vertex of the list lies strictly inside
its circumcircle. -/
def emptyCircle (vs : List Vertex) (t : Face) : Bool :=
  vs.all (fun v => !decide (0 < inCircle t.v0.p t.v1.p t.v2.p v.p * t.area2))

/-- Modelled from the spec: a "valid ... triangulation" (`delaunay_2_interp.h`,
not in src/): no triangle is flat, the triangles are made of inserted vertices,
no inserted vertex lies in a triangle other than as one of its three vertices,
and no two triangles overlap. -/
def Triangulation.wellFormed (T : Triangulation) : Bool :=
  T.faces.all (fun t => decide (t.area2 ≠ 0))
    && T.faces.all (fun t => t.verts.all (fun a => decide (a ∈ T.vertices)))
    && T.faces.all (fun t => vertexFree T.vertices t)
    && T.faces.all (fun s => T.faces.all (fun t => compatible s t))

/-- The triangles that can belong to a Delaunay triangulation of the vertices:
the triples that are not flat, have an empty circumcircle and hold no other
vertex. -/
def candidates (vs : List Vertex) : List Face :=
  ((triples vs).map (fun abc => (⟨abc.1, abc.2.1, abc.2.2⟩ : Face))).filter
    (fun t => decide (t.area2 ≠ 0) && emptyCircle vs t && vertexFree vs t)

/-- The choice among the candidates: they are taken in order, and a candidate
is kept when it overlaps none of those kept before it. Only when more than
three vertices lie on one empty circle is a candidate left out. -/
def selectFaces : List Face → List Face → List Face
  | [], kept => kept
  | c :: cs, kept =>
    if kept.all (fun k => compatible k c) then selectFaces cs (kept ++ [c])
    else selectFaces cs kept

/-- Modelled from the spec: the triangles kept by the triangulation
(`delaunay_2_interp.h`, not in src/): "Triangulation is always a valid Delaunay
triangulation of the inserted point set (empty-circumcircle property) after
every insertion completes". When more than three vertices lie on one empty
circle, where the specification leaves the choice open, the triangles with the
earlier inserted vertices are preferred. -/
def delaunayFaces (vs : List Vertex) : List Face :=
  selectFaces (candidates vs) []

/-- The triangulation before any insertion. -/
def Triangulation.empty : Triangulation := ⟨[], []⟩

/-- Modelled from the spec: `Delaunay_incremental_interp_2::insert_point`
(`delaunay_2_interp.h`, not in src/), exposed as `insert`, with the function
value supplied explicitly: the point is added as a vertex and the Delaunay
property restored; "Fails (signals an error) on duplicate-point insertion"
(`none`). -/
def insert_point (T : Triangulation) (p : Point ℚ) (f : ℚ) : Option Triangulation :=
  if T.vertices.any (fun v => decide (v.p = p)) then Option.none
  else some ⟨T.vertices ++ [⟨p, f⟩], delaunayFaces (T.vertices ++ [⟨p, f⟩])⟩

/-- The scenario of the specification: insert (0,0), (1,0), (0,1) with the
values 0, 1, 1. -/
def scenario : Option Triangulation :=
  ((insert_point Triangulation.empty ⟨0, 0⟩ 0).bind
    (fun T => insert_point T ⟨1, 0⟩ 1)).bind
    (fun T => insert_point T ⟨0, 1⟩ 1)

/-! ## Vocabulary of the claims -/

/-- The items of a host sequence (a list or a tuple). -/
def seqItems : PyObj → Option (List PyObj)
  | .list items => some items
  | .tuple items => some items
  | _ => Option.none

/-- Numeric host values. -/
def isNumeric : PyObj → Bool
  | .int _ => true
  | .float _ => true
  | _ => false

/-- A host sequence offered as a point whose length is not 2 or that has a
non-numeric element. -/
def wrongShape (v : PyObj) : Bool :=
  match seqItems v with
  | some items => items.length != 2 || items.any (fun x => !isNumeric x)
  | Option.none => false

/-- A host sequence of exactly `n` doubles. -/
def isSeqOfDoubles (n : Nat) (v : PyObj) : Bool :=
  match seqItems v with
  | some items => items.length == n && items.all PyFloat_Check
  | Option.none => false

/-- A host callable used to run the definitions on concrete inputs: it returns
the first item of the list it is given. -/
def firstItem : PyCallable := fun args =>
  match args with
  | .list (x :: _) => .ok x
  | _ => .raised .TypeError

/-- A number layer used to run the definitions on concrete inputs: an `RT`
built from a double is represented by that double. -/
def constKernel : NumKernel Double where
  RT_of_double := fun d => d
  RT_to_double := fun r => r

/-! ## Properties of `Point_from_python_list` -/

section PointFromPython

open Point_from_python_list

theorem check_loop_eq_true_iff (l : List PyObj) :
    check_loop l = true ↔ ∀ o ∈ l, PyFloat_Check o = true := by
  induction l with
  | nil => simp [check_loop]
  | cons o rest ih =>
    cases h : PyFloat_Check o <;> simp [check_loop, h, ih]

theorem PyFloat_Check_eq_true_iff (o : PyObj) :
    PyFloat_Check o = true ↔ ∃ d, o = .float d := by
  cases o <;> simp [PyFloat_Check]

theorem check_two_eq_true_iff (v : PyObj) :
    check 2 v = true ↔ ∃ a b, v = .list [.float a, .float b] := by
  constructor
  · intro h
    cases v with
    | list items =>
      simp only [check, PyList_Check, bpl_list] at h
      by_cases hlen : items.length = 2
      · simp only [hlen, ne_eq, not_true_eq_false, if_false, Bool.not_true,
          Bool.false_eq_true] at h
        rw [check_loop_eq_true_iff] at h
        match items, hlen with
        | [o0, o1], _ =>
          obtain ⟨a, ha⟩ := (PyFloat_Check_eq_true_iff o0).1 (h o0 (by simp))
          obtain ⟨b, hb⟩ := (PyFloat_Check_eq_true_iff o1).1 (h o1 (by simp))
          exact ⟨a, b, by rw [ha, hb]⟩
      · simp [hlen] at h
    | none => simp [check, PyList_Check] at h
    | int n => simp [check, PyList_Check] at h
    | float d => simp [check, PyList_Check] at h
    | str s => simp [check, PyList_Check] at h
    | tuple items => simp [check, PyList_Check] at h
  · rintro ⟨a, b, rfl⟩
    simp [check, PyList_Check, bpl_list, check_loop, PyFloat_Check]

theorem check_false_of_wrongShape (v : PyObj) (h : wrongShape v = true) :
    check 2 v = false := by
  cases hc : check 2 v with
  | false => rfl
  | true =>
    obtain ⟨a, b, rfl⟩ := (check_two_eq_true_iff v).1 hc
    simp [wrongShape, seqItems, isNumeric] at h

theorem copy_loop_floats {RT : Type} (K : NumKernel RT) (a b : Double) :
    copy_loop K [.float a, .float b] = .ok [K.RT_of_double a, K.RT_of_double b] := by
  simp [copy_loop, extract_double]

theorem bpl_list_of_seqItems {v : PyObj} {items : List PyObj}
    (h : seqItems v = some items) : bpl_list v = .ok items := by
  cases v <;> simp_all [seqItems, bpl_list]

theorem copy_loop_raises_of_nonNumeric {RT : Type} (K : NumKernel RT) (l : List PyObj)
    (h : ∃ x ∈ l, isNumeric x = false) :
    ∃ e, copy_loop K l = .raised e ∧ (e = .TypeError ∨ e = .OverflowError) := by
  induction l with
  | nil => simp at h
  | cons o rest ih =>
    have hrest : isNumeric o = true → ∃ x ∈ rest, isNumeric x = false := by
      intro ho
      obtain ⟨x, hx, hnum⟩ := h
      rcases List.mem_cons.1 hx with rfl | hx
      · rw [ho] at hnum; cases hnum
      · exact ⟨x, hx, hnum⟩
    cases o with
    | float d =>
      obtain ⟨e, he, hk⟩ := ih (hrest rfl)
      exact ⟨e, by simp [copy_loop, extract_double, he], hk⟩
    | int n =>
      cases hn : PyLong_AsDouble n with
      | none => exact ⟨.OverflowError, by simp [copy_loop, extract_double, hn], Or.inr rfl⟩
      | some d =>
        obtain ⟨e, he, hk⟩ := ih (hrest rfl)
        exact ⟨e, by simp [copy_loop, extract_double, hn, he], hk⟩
    | none => exact ⟨.TypeError, by simp [copy_loop, extract_double], Or.inl rfl⟩
    | str s => exact ⟨.TypeError, by simp [copy_loop, extract_double], Or.inl rfl⟩
    | tuple items => exact ⟨.TypeError, by simp [copy_loop, extract_double], Or.inl rfl⟩
    | list items => exact ⟨.TypeError, by simp [copy_loop, extract_double], Or.inl rfl⟩

/-- C1 (amended): `Point_from_python_list<2>::check` accepts a host value
exactly when it is a list of exactly two floats; in particular it rejects every
sequence whose length is not 2 or that contains a non-numeric element, and it
also rejects a 2-element sequence of doubles that is not a list. -/
theorem C1_check_accepts_exactly_lists_of_two_floats (v : PyObj) :
    (check 2 v = true ↔ ∃ a b, v = .list [.float a, .float b]) ∧
    (wrongShape v = true → check 2 v = false) :=
  ⟨check_two_eq_true_iff v, check_false_of_wrongShape v⟩

/-- C1, witness: a one-element list is a wrongly shaped sequence and is rejected. -/
theorem C1_check_witness :
    wrongShape (.list [.float Double.one]) = true ∧
    check 2 (.list [.float Double.one]) = false :=
  ⟨by decide,
   (C1_check_accepts_exactly_lists_of_two_floats (.list [.float Double.one])).2 (by decide)⟩

/-- C1, counterexample to the claim as stated: the tuple `(1.0, 2.0)` is a
2-element sequence of doubles, yet `check` returns `NULL` for it. -/
theorem C1_tuple_of_two_doubles_rejected :
    isSeqOfDoubles 2 (.tuple [.float Double.one, .float Double.two]) = true ∧
    check 2 (.tuple [.float Double.one, .float Double.two]) = false := by
  decide

/-- C2 (amended): for a host sequence whose length is not 2 or that has a
non-numeric element, `check` returns `NULL`, so the registered converter does
not apply: `construct` is not run, no Point is produced and this file raises
no error. The `ValueError` of `bpl_assert` is what `construct` raises when it
is run on its own on a sequence whose length is not 2; run on its own on a
2-element sequence with a non-numeric element it raises the error of
`extract<double>`, which is not a `ValueError`. -/
theorem C2_wrong_shape_is_not_convertible {RT : Type} (K : NumKernel RT) (v : PyObj)
    (h : wrongShape v = true) :
    check 2 v = false ∧
    Point_from_python K v = .notConvertible ∧
    (∀ items, seqItems v = some items → items.length ≠ 2 →
      construct K 2 v = .raised (.ValueError "must be length N")) ∧
    (∀ items, seqItems v = some items → items.length = 2 →
      ∃ e, construct K 2 v = .raised e ∧ (e = .TypeError ∨ e = .OverflowError)) := by
  have hc := check_false_of_wrongShape v h
  refine ⟨hc, by simp [Point_from_python, hc], ?_, ?_⟩
  · intro items hitems hlen
    simp [construct, bpl_list_of_seqItems hitems, hlen]
  · intro items hitems hlen
    have hbad : ∃ x ∈ items, isNumeric x = false := by
      simp only [wrongShape, hitems, hlen] at h
      simpa using h
    obtain ⟨e, he, hk⟩ := copy_loop_raises_of_nonNumeric K items hbad
    exact ⟨e, by simp [construct, bpl_list_of_seqItems hitems, hlen, he], hk⟩

/-- C2, witness: the one-element list `[1.0]`. -/
theorem C2_wrong_shape_witness :
    wrongShape (.list [.float Double.one]) = true ∧
    check 2 (.list [.float Double.one]) = false ∧
    Point_from_python constKernel (.list [.float Double.one]) = .notConvertible :=
  ⟨by decide,
   (C2_wrong_shape_is_not_convertible constKernel (.list [.float Double.one]) (by decide)).1,
   (C2_wrong_shape_is_not_convertible constKernel (.list [.float Double.one]) (by decide)).2.1⟩

/-- C2, counterexample to the claim as stated: the wrong-length list `[1.0, 2.0, 3.0]`
and the list `["a", 1.0]` with a non-numeric element are turned away by `check`
without any `ValueError`; and `construct` run on `["a", 1.0]` raises
`TypeError`, not `ValueError`. -/
theorem C2_rejection_is_not_a_ValueError :
    wrongShape (.list [.float Double.one, .float Double.two, .float Double.three]) = true ∧
    Point_from_python constKernel
      (.list [.float Double.one, .float Double.two, .float Double.three]) = .notConvertible ∧
    wrongShape (.list [.str "a", .float Double.one]) = true ∧
    Point_from_python constKernel (.list [.str "a", .float Double.one]) = .notConvertible ∧
    construct constKernel 2 (.list [.str "a", .float Double.one]) = .raised .TypeError := by
  refine ⟨by decide, by decide, by decide, by decide, by decide⟩

/-- C10: whenever `Point_from_python_list<2>::check` accepts a host object,
`construct` on it cannot fail: the object is a list of length 2 (so the
`bpl_assert` holds), each element extracts as a double, `coords[0]` and
`coords[1]` exist, and the Point built has `x` from element 0 and `y` from
element 1. -/
theorem C10_construct_succeeds_after_check {RT : Type} (K : NumKernel RT) (o : PyObj)
    (h : check 2 o = true) :
    ∃ a b, o = .list [.float a, .float b] ∧
      bpl_list o = .ok [.float a, .float b] ∧
      extract_double (.float a) = .ok a ∧ extract_double (.float b) = .ok b ∧
      construct K 2 o = .ok ⟨K.RT_of_double a, K.RT_of_double b⟩ := by
  obtain ⟨a, b, rfl⟩ := (check_two_eq_true_iff o).1 h
  refine ⟨a, b, rfl, rfl, rfl, rfl, ?_⟩
  simp [construct, bpl_list, copy_loop_floats]

/-- C10, witness: the list `[1.0, 2.0]`. -/
theorem C10_construct_witness :
    check 2 (.list [.float Double.one, .float Double.two]) = true ∧
    construct constKernel 2 (.list [.float Double.one, .float Double.two])
      = .ok ⟨Double.one, Double.two⟩ := by
  obtain ⟨a, b, hab, -, -, -, hc⟩ :=
    C10_construct_succeeds_after_check constKernel
      (.list [.float Double.one, .float Double.two]) (by decide)
  refine ⟨by decide, ?_⟩
  injection hab with hitems
  simp only [List.cons.injEq, PyObj.float.injEq, and_true] at hitems
  obtain ⟨rfl, rfl⟩ := hitems
  exact hc

end PointFromPython

/-! ## Properties of the converters to the host -/

section ToPython

theorem foldl_append_singleton {α β : Type} (g : α → β) (l : List α) (acc : List β) :
    l.foldl (fun result x => result ++ [g x]) acc = acc ++ l.map g := by
  induction l generalizing acc with
  | nil => simp
  | cons a rest ih => simp [ih]

theorem Point_to_list_convert_eq {RT : Type} (K : NumKernel RT) (x : Point RT) :
    Point_to_list.convert K x
      = .list [.float (K.RT_to_double x.x), .float (K.RT_to_double x.y)] := by
  simp [Point_to_list.convert, Point.dimension, Point.coord, List.range_succ]

/-- The part of the Point round trip that this file decides: `construct` on the
host list `[x, y]` followed by `Point_to_list::convert` gives the 2-element list
of `RT_to_double (RT x)` and `RT_to_double (RT y)`, in this order. Whether
`RT_to_double (RT x)` is `x` again is a property of the number layer. -/
theorem Point_round_trip_shape {RT : Type} (K : NumKernel RT) (x y : Double) :
    (match Point_from_python_list.construct K 2 (.list [.float x, .float y]) with
      | .ok p => some (Point_to_list.convert K p)
      | _ => Option.none)
      = some (.list [.float (K.RT_to_double (K.RT_of_double x)),
                     .float (K.RT_to_double (K.RT_of_double y))]) := by
  simp [Point_from_python_list.construct, bpl_list, copy_loop_floats,
    Point_to_list_convert_eq]

/-- C5: `ErrorTuple_to_python::convert` hands back a tuple of exactly three
components: the error magnitude `m_err`, the reference value `m_f` and the
representative point `m_x` (as the list of its two coordinates), in this
order. -/
theorem C5_ErrorTuple_convert_components {RT : Type} (K : NumKernel RT) (e : ErrorTuple RT) :
    ∃ c0 c1 c2, ErrorTuple_to_python.convert K e = .tuple [c0, c1, c2] ∧
      c0 = .float e.m_err ∧ c1 = .float e.m_f ∧
      c2 = Point_to_list.convert K e.m_x ∧
      c2 = .list [.float (K.RT_to_double e.m_x.x), .float (K.RT_to_double e.m_x.y)] :=
  ⟨_, _, _, rfl, rfl, rfl, rfl, Point_to_list_convert_eq K e.m_x⟩

/-- C9: the host list built by `forward_iterable_to_list::convert` has the
length of the native sequence and its i-th item is the conversion of the i-th
element, for every index: order is kept, nothing is dropped or duplicated. -/
theorem C9_forward_iterable_to_list_preserves {α : Type} (toPy : α → PyObj) (s : List α) :
    ∃ items, forward_iterable_to_list.convert toPy s = .list items ∧
      items.length = s.length ∧
      (∀ i, items.get? i = (s.get? i).map toPy) ∧
      items = s.map toPy := by
  refine ⟨s.map toPy, ?_, by simp, ?_, rfl⟩
  · simp [forward_iterable_to_list.convert, foldl_append_singleton]
  · intro i
    simp [List.getElem?_map]

/-- C6: the exposed enumeration has exactly the three members
`ON_UNBOUNDED_SIDE`, `ON_BOUNDARY`, `ON_BOUNDED_SIDE`, each name is bound to the
native constant of the same name, and names and values are pairwise distinct. -/
theorem C6_Bounded_side_members :
    Bounded_side_members.length = 3 ∧
    Bounded_side_members.map Prod.fst
      = ["ON_UNBOUNDED_SIDE", "ON_BOUNDARY", "ON_BOUNDED_SIDE"] ∧
    Bounded_side_lookup "ON_UNBOUNDED_SIDE" = some Bounded_side.ON_UNBOUNDED_SIDE ∧
    Bounded_side_lookup "ON_BOUNDARY" = some Bounded_side.ON_BOUNDARY ∧
    Bounded_side_lookup "ON_BOUNDED_SIDE" = some Bounded_side.ON_BOUNDED_SIDE ∧
    (Bounded_side_members.map Prod.fst).Nodup ∧
    (Bounded_side_members.map Prod.snd).Nodup ∧
    (Bounded_side_members.map (fun m => m.2.toInt)).Nodup := by
  refine ⟨rfl, rfl, by decide, by decide, by decide, by decide, by decide, by decide⟩

end ToPython

/-! ## The round trip of a Point through the exact number layer -/

section RoundTrip

theorem roundHalfEven_natCast (m : Nat) : roundHalfEven (m : ℚ) = m := by
  simp [roundHalfEven]

theorem two_zpow_add (k : ℕ) (E : ℤ) :
    ((2 : ℕ) : ℚ) ^ ((k : ℤ) + E) = ((2 ^ k : ℕ) : ℚ) * (2 : ℚ) ^ E := by
  push_cast
  rw [zpow_add₀ (by norm_num : (2 : ℚ) ≠ 0), zpow_natCast]

theorem binade_eq (m : Nat) (E : Int) (hm : 0 < m) (hm53 : m < 2 ^ 53) (hE : -1074 ≤ E)
    (hsub : m < 2 ^ 52 → E = -1074) : binade ((m : ℚ) * (2 : ℚ) ^ E) = E := by
  have hpos : (0 : ℚ) < (m : ℚ) * (2 : ℚ) ^ E := by positivity
  have h2 : (1 : ℕ) < 2 := by norm_num
  have hlt : ∀ k : ℕ, m < 2 ^ k → Int.log 2 ((m : ℚ) * (2 : ℚ) ^ E) < (k : ℤ) + E := by
    intro k hk
    rw [← Int.lt_zpow_iff_log_lt h2 hpos, two_zpow_add]
    apply mul_lt_mul_of_pos_right _ (by positivity)
    exact_mod_cast hk
  have hle : ∀ k : ℕ, 2 ^ k ≤ m → (k : ℤ) + E ≤ Int.log 2 ((m : ℚ) * (2 : ℚ) ^ E) := by
    intro k hk
    rw [← Int.zpow_le_iff_le_log h2 hpos, two_zpow_add]
    apply mul_le_mul_of_nonneg_right _ (by positivity)
    exact_mod_cast hk
  have hup := hlt 53 hm53
  unfold binade
  by_cases hn : m < 2 ^ 52
  · have hE1 := hsub hn
    have hup2 := hlt 52 hn
    push_cast at hup2
    omega
  · have hlow := hle 52 (Nat.le_of_not_lt hn)
    push_cast at hup hlow
    omega

theorem encode_eq (sign m : Nat) (E : Int) (hm53 : m < 2 ^ 53) (hE : E ≤ 971) :
    encode sign m E
      = ⟨sign + (if m < 2 ^ 52 then m else (E + 1075).toNat * 2 ^ 52 + (m - 2 ^ 52))⟩ := by
  unfold encode
  have h1 : m ≠ 2 ^ 53 := Nat.ne_of_lt hm53
  have h2 : ¬ (971 < E) := not_lt.2 hE
  rw [if_neg h1, if_neg h2]
  split <;> simp [Nat.add_assoc]

theorem RT_to_double_dyadic (neg : Bool) (m : Nat) (E : Int) (hm : 0 < m) (hm53 : m < 2 ^ 53)
    (hE : -1074 ≤ E) (hE2 : E ≤ 971) (hsub : m < 2 ^ 52 → E = -1074) :
    RT_to_double ((if neg then -1 else 1) * (m : ℚ) * (2 : ℚ) ^ E)
      = ⟨(if neg then 2 ^ 63 else 0)
          + (if m < 2 ^ 52 then m else (E + 1075).toNat * 2 ^ 52 + (m - 2 ^ 52))⟩ := by
  have hpos : (0 : ℚ) < (m : ℚ) * (2 : ℚ) ^ E := by positivity
  have hp2 : (0 : ℚ) < (2 : ℚ) ^ E := by positivity
  have habs : |(if neg then -1 else 1) * (m : ℚ) * (2 : ℚ) ^ E| = (m : ℚ) * (2 : ℚ) ^ E := by
    cases neg
    · simp [abs_of_pos hpos]
    · simp only [if_true, neg_mul, one_mul, abs_neg, abs_of_pos hpos]
  have hne : (if neg then -1 else 1) * (m : ℚ) * (2 : ℚ) ^ E ≠ 0 := by
    intro h
    rw [h, abs_zero] at habs
    exact absurd habs.symm (ne_of_gt hpos)
  have hlt : ((if neg then -1 else 1) * (m : ℚ) * (2 : ℚ) ^ E < 0) ↔ neg = true := by
    cases neg
    · simp [not_lt.2 (le_of_lt hpos)]
    · simp only [if_true, neg_mul, one_mul, Left.neg_neg_iff, hpos]
  unfold RT_to_double
  rw [if_neg hne, habs, binade_eq m E hm hm53 hE hsub, mul_div_assoc, div_self (ne_of_gt hp2),
    mul_one, roundHalfEven_natCast, encode_eq _ m E hm53 hE2]
  cases neg <;> simp [hpos, not_lt.2 (le_of_lt hpos)]

theorem Double.bits_eq_fields (d : Double) (h : d.bits < 2 ^ 64) :
    d.bits = d.signBit * 2 ^ 63 + d.expField * 2 ^ 52 + d.fraction ∧ d.signBit ≤ 1
      ∧ d.fraction < 2 ^ 52 := by
  simp only [Double.signBit, Double.expField, Double.fraction]
  norm_num at h ⊢
  omega

theorem Double.finite_iff (d : Double) :
    d.isFinite = true ↔ d.bits < 2 ^ 64 ∧ d.expField < 2047 := by
  simp [Double.isFinite]

theorem Double.toRat_zero_of_significand (d : Double) (h : d.significand = 0) :
    d.toRat = 0 := by
  simp [Double.toRat, h]

theorem RT_to_double_toRat_of_pos (d : Double) (hfin : d.isFinite = true)
    (hm : 0 < d.significand) : RT_to_double d.toRat = d := by
  obtain ⟨hb, he⟩ := (Double.finite_iff d).1 hfin
  obtain ⟨hbits, hs, hf⟩ := Double.bits_eq_fields d hb
  have hm53 : d.significand < 2 ^ 53 := by
    unfold Double.significand
    split <;> omega
  have hE : -1074 ≤ d.exponent := by
    unfold Double.exponent
    omega
  have hE2 : d.exponent ≤ 971 := by
    unfold Double.exponent
    omega
  have hsub : d.significand < 2 ^ 52 → d.exponent = -1074 := by
    unfold Double.significand Double.exponent
    split
    · intro _; omega
    · intro h; omega
  have hform : d.toRat
      = (if decide (d.signBit = 1) then -1 else 1) * (d.significand : ℚ)
          * (2 : ℚ) ^ d.exponent := by
    unfold Double.toRat
    by_cases h1 : d.signBit = 1 <;> simp [h1]
  rw [hform, RT_to_double_dyadic _ _ _ hm hm53 hE hE2 hsub]
  have hgoal : (if decide (d.signBit = 1) = true then 2 ^ 63 else 0)
      + (if d.significand < 2 ^ 52 then d.significand
          else (d.exponent + 1075).toNat * 2 ^ 52 + (d.significand - 2 ^ 52)) = d.bits := by
    have hsign : (if decide (d.signBit = 1) = true then 2 ^ 63 else 0) = d.signBit * 2 ^ 63 := by
      have hs2 : d.signBit = 0 ∨ d.signBit = 1 := by omega
      rcases hs2 with hs2 | hs2 <;> simp [hs2]
    rw [hsign]
    by_cases h0 : d.expField = 0
    · have hsig : d.significand = d.fraction := by simp [Double.significand, h0]
      rw [hsig, if_pos hf]
      omega
    · have hsig : d.significand = 2 ^ 52 + d.fraction := by simp [Double.significand, h0]
      have hexp : (d.exponent + 1075).toNat = d.expField := by
        unfold Double.exponent
        omega
      have hnlt : ¬ (2 ^ 52 + d.fraction < 2 ^ 52) := by omega
      rw [hsig, if_neg hnlt, hexp]
      omega
  rw [hgoal]

theorem Double.fields_of_significand_zero (d : Double) (hb : d.bits < 2 ^ 64)
    (h : d.significand = 0) : d.bits = 0 ∨ d.bits = 2 ^ 63 := by
  obtain ⟨hbits, hs, hf⟩ := Double.bits_eq_fields d hb
  unfold Double.significand at h
  by_cases h0 : d.expField = 0
  · rw [if_pos h0] at h
    rw [h0, h] at hbits
    have hs2 : d.signBit = 0 ∨ d.signBit = 1 := by omega
    rcases hs2 with hs2 | hs2
    · left; rw [hbits, hs2]; norm_num
    · right; rw [hbits, hs2]; norm_num
  · rw [if_neg h0] at h
    have : 0 < 2 ^ 52 + d.fraction := by positivity
    omega

theorem Double.not_isNaN_of_isFinite (d : Double) (h : d.isFinite = true) :
    d.isNaN = false := by
  obtain ⟨-, he⟩ := (Double.finite_iff d).1 h
  have : d.expField ≠ 2047 := by omega
  simp [Double.isNaN, this]

theorem scalar_round_trip (x : Double) (hfin : x.isFinite = true) :
    (RT_to_double (RT_of_double x)).isFinite = true ∧
    (RT_to_double (RT_of_double x)).toRat = x.toRat ∧
    float_eq (RT_to_double (RT_of_double x)) x = true ∧
    (x.bits ≠ 2 ^ 63 → RT_to_double (RT_of_double x) = x) := by
  have hself : float_eq x x = true := by
    simp [float_eq, Double.not_isNaN_of_isFinite x hfin, hfin]
  by_cases hm : 0 < x.significand
  · have h := RT_to_double_toRat_of_pos x hfin hm
    simp only [RT_of_double]
    rw [h]
    exact ⟨hfin, rfl, hself, fun _ => rfl⟩
  · have hm0 : x.significand = 0 := by omega
    have hz : x.toRat = 0 := Double.toRat_zero_of_significand x hm0
    have hr : RT_to_double (RT_of_double x) = ⟨0⟩ := by
      simp [RT_of_double, hz, RT_to_double]
    have hzero : (⟨0⟩ : Double).toRat = 0 := by
      simp [Double.toRat, Double.significand, Double.expField, Double.fraction]
    have hfin0 : (⟨0⟩ : Double).isFinite = true := by decide
    rw [hr]
    refine ⟨hfin0, by rw [hzero, hz], ?_, ?_⟩
    · simp [float_eq, Double.not_isNaN_of_isFinite x hfin,
        Double.not_isNaN_of_isFinite _ hfin0, hfin, hfin0, hzero, hz]
    · intro hne
      obtain ⟨hb, -⟩ := (Double.finite_iff x).1 hfin
      rcases Double.fields_of_significand_zero x hb hm0 with h0 | h63
      · cases x with
        | mk bits => simp only at h0; rw [h0]
      · exact absurd h63 hne

/-- C3: for every pair of finite doubles (x, y), `construct` on the host list
`[x, y]` succeeds and `Point_to_list::convert` turns the Point back into a list
of exactly two floats that are equal, under the host comparison of floats, to
x and y in this order; each denotes the same number as the one it came from, and
is the same bit pattern unless that one is the negative zero, which comes back
as a zero. -/
theorem C3_point_round_trip (x y : Double) (hx : x.isFinite = true)
    (hy : y.isFinite = true) :
    ∃ p x1 y1,
      Point_from_python_list.construct exactKernel 2 (.list [.float x, .float y]) = .ok p ∧
      Point_to_list.convert exactKernel p = .list [.float x1, .float y1] ∧
      float_eq x1 x = true ∧ float_eq y1 y = true ∧
      x1.toRat = x.toRat ∧ y1.toRat = y.toRat ∧
      (x.bits ≠ 2 ^ 63 → x1 = x) ∧ (y.bits ≠ 2 ^ 63 → y1 = y) := by
  obtain ⟨-, hx2, hx3, hx4⟩ := scalar_round_trip x hx
  obtain ⟨-, hy2, hy3, hy4⟩ := scalar_round_trip y hy
  refine ⟨⟨RT_of_double x, RT_of_double y⟩, RT_to_double (RT_of_double x),
    RT_to_double (RT_of_double y), ?_, ?_, hx3, hy3, hx2, hy2, hx4, hy4⟩
  · simp [Point_from_python_list.construct, bpl_list, copy_loop_floats, exactKernel]
  · rw [Point_to_list_convert_eq]
    rfl

/-- C3, witness: the host list `[1.0, 2.0]` comes back as `[1.0, 2.0]`. -/
theorem C3_point_round_trip_witness :
    Double.one.isFinite = true ∧ Double.two.isFinite = true ∧
    ∃ p, Point_from_python_list.construct exactKernel 2
        (.list [.float Double.one, .float Double.two]) = .ok p ∧
      Point_to_list.convert exactKernel p = .list [.float Double.one, .float Double.two] := by
  obtain ⟨p, x1, y1, hc, hl, -, -, -, -, hx, hy⟩ :=
    C3_point_round_trip Double.one Double.two (by decide) (by decide)
  refine ⟨by decide, by decide, p, hc, ?_⟩
  rw [hl, hx (by decide), hy (by decide)]

end RoundTrip

/-! ## `coords_to_point` -/

/-- C8, the code at the failing inputs: `coords_to_point` has no length check.
A one-dimensional array of three doubles yields a Point from the first two and
drops the third; arrays of length 1 and 0 lead to a read of `coords[1]`
(`coords[0]`) outside the vector; only a wrong number of dimensions raises the
value error. -/
theorem C8_coords_to_point_has_no_length_check :
    coords_to_point constKernel ⟨[3], [Double.one, Double.two, Double.three]⟩
      = .ok ⟨Double.one, Double.two⟩ ∧
    coords_to_point constKernel ⟨[1], [Double.one]⟩ = .undefined ∧
    coords_to_point constKernel ⟨[0], []⟩ = .undefined ∧
    coords_to_point constKernel ⟨[1, 2], [Double.one, Double.two]⟩
      = .raised (.ValueError "x should have dimension 1") := by
  refine ⟨by decide, by decide, by decide, by decide⟩

/-! ## The wrapper class -/

section Wrap

theorem call_python_fn_loop_two (a b : Double) (rest : List Double) :
    call_python_fn.loop (a :: b :: rest) (2 : Int).toNat 0 = .ok [.float a, .float b] := by
  have h2 : (2 : Int).toNat = 2 := rfl
  simp [h2, call_python_fn.loop]

/-- C4 (amended): constructed with `None`, the wrapper leaves `m_fn` unset.
Constructed with a callable `f`, it binds a value function that, invoked with
any `n_args` and a coordinate array of at least two doubles, calls `f` exactly
once, with the list of the first two doubles in order (the count `n_args` is
not used), and returns the double extracted from the result of `f`; an error
raised by `f` is passed on. -/
theorem C4_constructor_binds_two_argument_callback :
    (Delaunay_incremental_interp_2_wrap.new (.value .none)).m_fn.isNone = true ∧
    ∀ (f : PyCallable) (n_args : Int) (a b : Double) (rest : List Double),
      ∃ m_fn, (Delaunay_incremental_interp_2_wrap.new (.callable f)).m_fn = some m_fn ∧
        (m_fn n_args (a :: b :: rest)).calls = [.list [.float a, .float b]] ∧
        (∀ r, f (.list [.float a, .float b]) = .ok r →
          (m_fn n_args (a :: b :: rest)).result = extract_double r) ∧
        (∀ d, f (.list [.float a, .float b]) = .ok (.float d) →
          (m_fn n_args (a :: b :: rest)).result = .ok d) ∧
        (∀ e, f (.list [.float a, .float b]) = .raised e →
          (m_fn n_args (a :: b :: rest)).result = .raised e) := by
  refine ⟨rfl, ?_⟩
  intro f n_args a b rest
  refine ⟨_, rfl, ?_, ?_, ?_, ?_⟩
  · simp only [call_python_fn, call_python_fn_loop_two]
    cases f (.list [.float a, .float b]) <;> rfl
  · intro r hr
    simp only [call_python_fn, call_python_fn_loop_two, hr]
  · intro d hd
    simp only [call_python_fn, call_python_fn_loop_two, hd, extract_double]
  · intro e he
    simp only [call_python_fn, call_python_fn_loop_two, he]

/-- C4, witness: the callable that returns its first item, called through the
bound value function on the coordinates (1.0, 2.0). -/
theorem C4_constructor_witness :
    firstItem (.list [.float Double.one, .float Double.two]) = .ok (.float Double.one) ∧
    ∃ m_fn, (Delaunay_incremental_interp_2_wrap.new (.callable firstItem)).m_fn
        = some m_fn ∧
      (m_fn 2 [Double.one, Double.two]).calls = [.list [.float Double.one, .float Double.two]] ∧
      (m_fn 2 [Double.one, Double.two]).result = .ok Double.one := by
  obtain ⟨m_fn, h1, h2, -, h4, -⟩ :=
    C4_constructor_binds_two_argument_callback.2 firstItem 2 Double.one Double.two []
  exact ⟨rfl, m_fn, h1, h2, h4 Double.one rfl⟩

/-- C4, counterexample to the claim as stated: invoked with N = 3 coordinates
(1.0, 2.0, 3.0), the bound value function calls the host function with the list
of the first two only, `[1.0, 2.0]`, not with the three coordinates. -/
theorem C4_three_coordinates_are_truncated :
    ((Delaunay_incremental_interp_2_wrap.new (.callable firstItem)).m_fn.map
        (fun m_fn => (m_fn 3 [Double.one, Double.two, Double.three]).calls))
      = some [.list [.float Double.one, .float Double.two]] ∧
    ((Delaunay_incremental_interp_2_wrap.new (.callable firstItem)).m_fn.map
        (fun m_fn => (m_fn 3 [Double.one, Double.two, Double.three]).calls))
      ≠ some [.list [.float Double.one, .float Double.two, .float Double.three]] := by
  constructor
  · rfl
  · simp [Delaunay_incremental_interp_2_wrap.new, HostObj.ne_None, call_python_fn,
      call_python_fn.loop, firstItem]

end Wrap

/-! ## The interpolation evaluator -/

section Geometry

theorem Face.weight_sum (t : Face) (q : Point ℚ) (h : t.area2 ≠ 0) :
    t.weight 0 q + t.weight 1 q + t.weight 2 q = 1 := by
  simp only [Face.weight, barycentric]
  rw [← add_div, ← add_div, div_eq_one_iff_eq h]
  simp only [Face.area2, orient]
  ring

theorem Face.recon_x (t : Face) (q : Point ℚ) (h : t.area2 ≠ 0) :
    q.x = t.weight 0 q * t.v0.p.x + t.weight 1 q * t.v1.p.x + t.weight 2 q * t.v2.p.x := by
  have h2 : orient t.v0.p t.v1.p t.v2.p ≠ 0 := h
  simp only [Face.weight, barycentric, Face.area2]
  field_simp
  simp only [orient]
  ring

theorem Face.recon_y (t : Face) (q : Point ℚ) (h : t.area2 ≠ 0) :
    q.y = t.weight 0 q * t.v0.p.y + t.weight 1 q * t.v1.p.y + t.weight 2 q * t.v2.p.y := by
  have h2 : orient t.v0.p t.v1.p t.v2.p ≠ 0 := h
  simp only [Face.weight, barycentric, Face.area2]
  field_simp
  simp only [orient]
  ring

theorem Face.weight_affine (s : Face) (i : Fin 3) (p0 p1 p2 x : Point ℚ) (m0 m1 m2 : ℚ)
    (hsum : m0 + m1 + m2 = 1)
    (hx : x.x = m0 * p0.x + m1 * p1.x + m2 * p2.x)
    (hy : x.y = m0 * p0.y + m1 * p1.y + m2 * p2.y) :
    s.weight i x = m0 * s.weight i p0 + m1 * s.weight i p1 + m2 * s.weight i p2 := by
  have hm : m2 = 1 - m0 - m1 := by linarith
  subst hm
  fin_cases i <;>
  · simp only [Face.weight, barycentric, orient, hx, hy]
    ring

theorem Face.weight_vert_self (t : Face) (h : t.area2 ≠ 0) (i : Fin 3) :
    t.weight i (t.vert i).p = 1 := by
  have h2 : orient t.v0.p t.v1.p t.v2.p ≠ 0 := h
  fin_cases i <;>
  · simp only [Face.weight, Face.vert, barycentric, Face.area2]
    exact div_self h2

theorem Face.weight_vert_ne (t : Face) (i j : Fin 3) (hij : i ≠ j) :
    t.weight i (t.vert j).p = 0 := by
  fin_cases i <;> fin_cases j <;>
  first
    | exact absurd rfl hij
    | (simp only [Face.weight, Face.vert, barycentric]
       rw [div_eq_zero_iff]
       left
       simp only [orient]
       ring)

theorem Face.weight_vert (t : Face) (h : t.area2 ≠ 0) (i j : Fin 3) :
    t.weight i (t.vert j).p = if i = j then 1 else 0 := by
  by_cases hij : i = j
  · rw [if_pos hij, hij, Face.weight_vert_self t h j]
  · rw [if_neg hij, Face.weight_vert_ne t i j hij]

theorem Face.combine_eq (t : Face) (q : Point ℚ) :
    t.combine q = t.weight 0 q * t.v0.f + t.weight 1 q * t.v1.f + t.weight 2 q * t.v2.f := rfl

theorem Face.combine_affine (s : Face) (p0 p1 p2 x : Point ℚ) (m0 m1 m2 : ℚ)
    (hsum : m0 + m1 + m2 = 1)
    (hx : x.x = m0 * p0.x + m1 * p1.x + m2 * p2.x)
    (hy : x.y = m0 * p0.y + m1 * p1.y + m2 * p2.y) :
    s.combine x = m0 * s.combine p0 + m1 * s.combine p1 + m2 * s.combine p2 := by
  simp only [Face.combine_eq]
  rw [Face.weight_affine s 0 p0 p1 p2 x m0 m1 m2 hsum hx hy,
    Face.weight_affine s 1 p0 p1 p2 x m0 m1 m2 hsum hx hy,
    Face.weight_affine s 2 p0 p1 p2 x m0 m1 m2 hsum hx hy]
  ring

theorem Face.combine_vert (t : Face) (h : t.area2 ≠ 0) (j : Fin 3) :
    t.combine (t.vert j).p = (t.vert j).f := by
  rw [Face.combine_eq, Face.weight_vert t h 0 j, Face.weight_vert t h 1 j,
    Face.weight_vert t h 2 j]
  fin_cases j <;> simp [Face.vert]

theorem Face.contains_iff (t : Face) (q : Point ℚ) :
    t.contains q = true ↔ t.area2 ≠ 0 ∧ ∀ i, 0 ≤ t.weight i q := by
  simp only [Face.contains, Bool.and_eq_true, decide_eq_true_eq]
  constructor
  · rintro ⟨⟨⟨h, h0⟩, h1⟩, h2⟩
    refine ⟨h, fun i => ?_⟩
    fin_cases i
    · exact h0
    · exact h1
    · exact h2
  · rintro ⟨h, hw⟩
    exact ⟨⟨⟨h, hw 0⟩, hw 1⟩, hw 2⟩

theorem Face.mem_verts_iff (t : Face) (a : Vertex) :
    a ∈ t.verts ↔ ∃ i, a = t.vert i := by
  simp only [Face.verts, List.mem_cons, List.mem_singleton, List.not_mem_nil, or_false]
  constructor
  · rintro (h | h | h)
    · exact ⟨0, h⟩
    · exact ⟨1, h⟩
    · exact ⟨2, h⟩
  · rintro ⟨i, h⟩
    fin_cases i
    · exact Or.inl h
    · exact Or.inr (Or.inl h)
    · exact Or.inr (Or.inr h)

theorem Face.combine_of_mem_verts (t : Face) (h : t.area2 ≠ 0) (a : Vertex)
    (ha : a ∈ t.verts) : t.combine a.p = a.f := by
  obtain ⟨i, rfl⟩ := (Face.mem_verts_iff t a).1 ha
  exact Face.combine_vert t h i

end Geometry

section Agreement

theorem no_vertex_between (t : Face) (ht : t.area2 ≠ 0) (j : Fin 3) (q : Point ℚ)
    (hq : t.contains q = true) (hpos : 0 < t.weight j q) (a : Vertex) (θ : ℚ)
    (h0 : 0 ≤ θ) (h1 : θ < 1)
    (hx : a.p.x = θ * (t.vert j).p.x + (1 - θ) * q.x)
    (hy : a.p.y = θ * (t.vert j).p.y + (1 - θ) * q.y)
    (hV : t.contains a.p = true → a ∈ t.verts)
    (hne : a.p ≠ (t.vert j).p) : False := by
  have hw : ∀ m, t.weight m a.p
      = θ * t.weight m (t.vert j).p + (1 - θ) * t.weight m q := by
    intro m
    have h := Face.weight_affine t m (t.vert j).p q q a.p θ (1 - θ) 0 (by ring)
      (by rw [hx]; ring) (by rw [hy]; ring)
    rw [h]
    ring
  have hqw := ((Face.contains_iff t q).1 hq).2
  have hcont : t.contains a.p = true := by
    rw [Face.contains_iff]
    refine ⟨ht, fun m => ?_⟩
    rw [hw m, Face.weight_vert t ht m j]
    have hm := hqw m
    have h2 : 0 ≤ 1 - θ := by linarith
    split
    · have := mul_nonneg h2 hm
      linarith
    · have := mul_nonneg h2 hm
      linarith
  obtain ⟨m, hm⟩ := (Face.mem_verts_iff t a).1 (hV hcont)
  have hj := hw j
  rw [Face.weight_vert_self t ht j] at hj
  have hjpos : 0 < t.weight j a.p := by
    have h2 : 0 < 1 - θ := by linarith
    have := mul_pos h2 hpos
    linarith
  by_cases hmj : m = j
  · apply hne
    rw [hm, hmj]
  · rw [hm, Face.weight_vert_ne t j m (fun h => hmj h.symm)] at hjpos
    exact lt_irrefl _ hjpos

theorem agree_of_edgeSeparates (s t : Face) (hs : s.area2 ≠ 0) (ht : t.area2 ≠ 0)
    (hsep : s.edgeSeparates t = true)
    (V1 : ∀ b ∈ t.verts, s.contains b.p = true → b ∈ s.verts)
    (V2 : ∀ a ∈ s.verts, t.contains a.p = true → a ∈ t.verts)
    (q : Point ℚ) (hqs : s.contains q = true) (hqt : t.contains q = true) :
    s.combine q = t.combine q := by
  have hφ : ∀ j, s.weight 2 (t.vert j).p ≤ 0 := by
    intro j
    have hmem : t.vert j ∈ t.verts := (Face.mem_verts_iff t _).2 ⟨j, rfl⟩
    simp only [Face.edgeSeparates, List.all_eq_true, decide_eq_true_eq] at hsep
    have h := hsep _ hmem
    simp only [Face.weight, barycentric]
    have hA : 0 < s.area2 * s.area2 := mul_self_pos.2 hs
    have e : orient s.v0.p s.v1.p (t.vert j).p / s.area2
        = orient s.v0.p s.v1.p (t.vert j).p * s.area2 / (s.area2 * s.area2) := by
      field_simp
      ring
    rw [e]
    exact div_nonpos_of_nonpos_of_nonneg h (le_of_lt hA)
  have hsw := ((Face.contains_iff s q).1 hqs).2
  have htw := ((Face.contains_iff t q).1 hqt).2
  have hsum := Face.weight_sum t q ht
  have hrx := Face.recon_x t q ht
  have hry := Face.recon_y t q ht
  have hφq := Face.weight_affine s 2 t.v0.p t.v1.p t.v2.p q _ _ _ hsum hrx hry
  have z0 : t.weight 0 q * s.weight 2 t.v0.p ≤ 0 := mul_nonpos_of_nonneg_of_nonpos (htw 0) (hφ 0)
  have z1 : t.weight 1 q * s.weight 2 t.v1.p ≤ 0 := mul_nonpos_of_nonneg_of_nonpos (htw 1) (hφ 1)
  have z2 : t.weight 2 q * s.weight 2 t.v2.p ≤ 0 := mul_nonpos_of_nonneg_of_nonpos (htw 2) (hφ 2)
  have hq2 := hsw 2
  have hφq0 : s.weight 2 q = 0 := by linarith
  have hz : ∀ j, t.weight j q * s.weight 2 (t.vert j).p = 0 := by
    intro j
    fin_cases j
    · show t.weight 0 q * s.weight 2 t.v0.p = 0
      linarith
    · show t.weight 1 q * s.weight 2 t.v1.p = 0
      linarith
    · show t.weight 2 q * s.weight 2 t.v2.p = 0
      linarith
  have hssum := Face.weight_sum s q hs
  have hsx := Face.recon_x s q hs
  have hsy := Face.recon_y s q hs
  have key : ∀ j, t.weight j q = 0 ∨ s.combine (t.vert j).p = (t.vert j).f := by
    intro j
    by_cases hμ : t.weight j q = 0
    · exact Or.inl hμ
    · right
      have hμpos : 0 < t.weight j q := lt_of_le_of_ne (htw j) (Ne.symm hμ)
      have hφj : s.weight 2 (t.vert j).p = 0 := by
        rcases mul_eq_zero.1 (hz j) with h | h
        · exact absurd h hμ
        · exact h
      have hmem : t.vert j ∈ t.verts := (Face.mem_verts_iff t _).2 ⟨j, rfl⟩
      by_cases hc : s.contains (t.vert j).p = true
      · exact Face.combine_of_mem_verts s hs _ (V1 _ hmem hc)
      · exfalso
        have hbsum := Face.weight_sum s (t.vert j).p hs
        have hbx := Face.recon_x s (t.vert j).p hs
        have hby := Face.recon_y s (t.vert j).p hs
        rw [hφj] at hbsum hbx hby
        rw [hφq0] at hssum hsx hsy
        have hneg : s.weight 0 (t.vert j).p < 0 ∨ s.weight 1 (t.vert j).p < 0 := by
          by_contra hcon
          push_neg at hcon
          apply hc
          rw [Face.contains_iff]
          refine ⟨hs, fun i => ?_⟩
          fin_cases i
          · exact hcon.1
          · exact hcon.2
          · exact le_of_eq hφj.symm
        rcases hneg with hneg | hneg
        · -- the vertex v1 of s lies between the vertex of t and q
          have hd : 0 < s.weight 1 (t.vert j).p - s.weight 1 q := by
            have := hsw 0
            linarith
          obtain ⟨θ, hθ0, hθ1, hθ⟩ : ∃ θ : ℚ, 0 ≤ θ ∧ θ < 1 ∧
              θ * (s.weight 1 (t.vert j).p - s.weight 1 q) = 1 - s.weight 1 q :=
            ⟨(1 - s.weight 1 q) / (s.weight 1 (t.vert j).p - s.weight 1 q),
              div_nonneg (by have := hsw 0; linarith) (le_of_lt hd),
              (div_lt_one hd).2 (by linarith), div_mul_cancel₀ _ (ne_of_gt hd)⟩
          refine no_vertex_between t ht j q hqt hμpos s.v1 θ hθ0 hθ1 ?_ ?_
            (V2 _ ((Face.mem_verts_iff s _).2 ⟨1, rfl⟩)) ?_
          · rw [hbx, hsx]
            have e0 : s.weight 0 (t.vert j).p = 1 - s.weight 1 (t.vert j).p := by linarith
            have e1 : s.weight 0 q = 1 - s.weight 1 q := by linarith
            rw [e0, e1]
            linear_combination (s.v0.p.x - s.v1.p.x) * hθ
          · rw [hby, hsy]
            have e0 : s.weight 0 (t.vert j).p = 1 - s.weight 1 (t.vert j).p := by linarith
            have e1 : s.weight 0 q = 1 - s.weight 1 q := by linarith
            rw [e0, e1]
            linear_combination (s.v0.p.y - s.v1.p.y) * hθ
          · intro he
            have h1 := Face.weight_vert_self s hs 1
            rw [show (s.vert 1).p = s.v1.p from rfl, he] at h1
            linarith
        · -- the vertex v0 of s lies between the vertex of t and q
          have hd : 0 < s.weight 0 (t.vert j).p - s.weight 0 q := by
            have := hsw 1
            linarith
          obtain ⟨θ, hθ0, hθ1, hθ⟩ : ∃ θ : ℚ, 0 ≤ θ ∧ θ < 1 ∧
              θ * (s.weight 0 (t.vert j).p - s.weight 0 q) = 1 - s.weight 0 q :=
            ⟨(1 - s.weight 0 q) / (s.weight 0 (t.vert j).p - s.weight 0 q),
              div_nonneg (by have := hsw 1; linarith) (le_of_lt hd),
              (div_lt_one hd).2 (by linarith), div_mul_cancel₀ _ (ne_of_gt hd)⟩
          refine no_vertex_between t ht j q hqt hμpos s.v0 θ hθ0 hθ1 ?_ ?_
            (V2 _ ((Face.mem_verts_iff s _).2 ⟨0, rfl⟩)) ?_
          · rw [hbx, hsx]
            have e0 : s.weight 1 (t.vert j).p = 1 - s.weight 0 (t.vert j).p := by linarith
            have e1 : s.weight 1 q = 1 - s.weight 0 q := by linarith
            rw [e0, e1]
            linear_combination (s.v1.p.x - s.v0.p.x) * hθ
          · rw [hby, hsy]
            have e0 : s.weight 1 (t.vert j).p = 1 - s.weight 0 (t.vert j).p := by linarith
            have e1 : s.weight 1 q = 1 - s.weight 0 q := by linarith
            rw [e0, e1]
            linear_combination (s.v1.p.y - s.v0.p.y) * hθ
          · intro he
            have h1 := Face.weight_vert_self s hs 0
            rw [show (s.vert 0).p = s.v0.p from rfl, he] at h1
            linarith
  have hcs := Face.combine_affine s t.v0.p t.v1.p t.v2.p q _ _ _ hsum hrx hry
  have e0 : t.weight 0 q * s.combine t.v0.p = t.weight 0 q * t.v0.f := by
    rcases key 0 with h | h
    · rw [h]; ring
    · rw [show s.combine t.v0.p = t.v0.f from h]
  have e1 : t.weight 1 q * s.combine t.v1.p = t.weight 1 q * t.v1.f := by
    rcases key 1 with h | h
    · rw [h]; ring
    · rw [show s.combine t.v1.p = t.v1.f from h]
  have e2 : t.weight 2 q * s.combine t.v2.p = t.weight 2 q * t.v2.f := by
    rcases key 2 with h | h
    · rw [h]; ring
    · rw [show s.combine t.v2.p = t.v2.f from h]
  rw [hcs, Face.combine_eq t q, e0, e1, e2]

end Agreement

section Triangulations

theorem Face.rot_area2 (s : Face) : s.rot.area2 = s.area2 := by
  simp only [Face.rot, Face.area2, orient]
  ring

theorem Face.rot_weight (s : Face) (q : Point ℚ) :
    s.rot.weight 0 q = s.weight 1 q ∧ s.rot.weight 1 q = s.weight 2 q
      ∧ s.rot.weight 2 q = s.weight 0 q := by
  refine ⟨?_, ?_, ?_⟩ <;>
  · simp only [Face.weight, barycentric, Face.rot_area2]
    simp only [Face.rot, orient]
    ring

theorem Face.rot_combine (s : Face) (q : Point ℚ) : s.rot.combine q = s.combine q := by
  obtain ⟨h0, h1, h2⟩ := Face.rot_weight s q
  rw [Face.combine_eq, Face.combine_eq, h0, h1, h2]
  simp only [Face.rot]
  ring

theorem Face.rot_contains (s : Face) (q : Point ℚ) :
    s.rot.contains q = true ↔ s.contains q = true := by
  obtain ⟨h0, h1, h2⟩ := Face.rot_weight s q
  rw [Face.contains_iff, Face.contains_iff, Face.rot_area2]
  constructor
  · rintro ⟨h, hw⟩
    refine ⟨h, fun i => ?_⟩
    fin_cases i
    · have := hw 2; rw [h2] at this; exact this
    · have := hw 0; rw [h0] at this; exact this
    · have := hw 1; rw [h1] at this; exact this
  · rintro ⟨h, hw⟩
    refine ⟨h, fun i => ?_⟩
    fin_cases i
    · show 0 ≤ s.rot.weight 0 q
      rw [h0]; exact hw 1
    · show 0 ≤ s.rot.weight 1 q
      rw [h1]; exact hw 2
    · show 0 ≤ s.rot.weight 2 q
      rw [h2]; exact hw 0

theorem Face.rot_mem_verts (s : Face) (a : Vertex) : a ∈ s.rot.verts ↔ a ∈ s.verts := by
  simp only [Face.rot, Face.verts, List.mem_cons, List.mem_singleton, List.not_mem_nil,
    or_false]
  tauto

theorem agree_of_rot (s t : Face)
    (h : ∀ q, s.rot.contains q = true → t.contains q = true → s.rot.combine q = t.combine q)
    (q : Point ℚ) (hqs : s.contains q = true) (hqt : t.contains q = true) :
    s.combine q = t.combine q := by
  rw [← Face.rot_combine]
  exact h q ((Face.rot_contains s q).2 hqs) hqt

theorem agree_of_separatedFrom (s t : Face) (hs : s.area2 ≠ 0) (ht : t.area2 ≠ 0)
    (hsep : s.separatedFrom t = true)
    (V1 : ∀ b ∈ t.verts, s.contains b.p = true → b ∈ s.verts)
    (V2 : ∀ a ∈ s.verts, t.contains a.p = true → a ∈ t.verts)
    (q : Point ℚ) (hqs : s.contains q = true) (hqt : t.contains q = true) :
    s.combine q = t.combine q := by
  have hs1 : s.rot.area2 ≠ 0 := by rw [Face.rot_area2]; exact hs
  have hs2 : s.rot.rot.area2 ≠ 0 := by rw [Face.rot_area2]; exact hs1
  have V1r : ∀ b ∈ t.verts, s.rot.contains b.p = true → b ∈ s.rot.verts := by
    intro b hb hc
    exact (Face.rot_mem_verts s b).2 (V1 b hb ((Face.rot_contains s _).1 hc))
  have V2r : ∀ a ∈ s.rot.verts, t.contains a.p = true → a ∈ t.verts := by
    intro a ha hc
    exact V2 a ((Face.rot_mem_verts s a).1 ha) hc
  have V1rr : ∀ b ∈ t.verts, s.rot.rot.contains b.p = true → b ∈ s.rot.rot.verts := by
    intro b hb hc
    exact (Face.rot_mem_verts s.rot b).2 (V1r b hb ((Face.rot_contains s.rot _).1 hc))
  have V2rr : ∀ a ∈ s.rot.rot.verts, t.contains a.p = true → a ∈ t.verts := by
    intro a ha hc
    exact V2r a ((Face.rot_mem_verts s.rot a).1 ha) hc
  simp only [Face.separatedFrom, Bool.or_eq_true] at hsep
  rcases hsep with (h | h) | h
  · exact agree_of_edgeSeparates s t hs ht h V1 V2 q hqs hqt
  · exact agree_of_rot s t
      (fun q hq1 hq2 => agree_of_edgeSeparates s.rot t hs1 ht h V1r V2r q hq1 hq2) q hqs hqt
  · refine agree_of_rot s t (fun q hq1 hq2 => ?_) q hqs hqt
    exact agree_of_rot s.rot t
      (fun q hq1 hq2 => agree_of_edgeSeparates s.rot.rot t hs2 ht h V1rr V2rr q hq1 hq2)
      q hq1 hq2

theorem agree_of_vertsWithin (s t : Face) (hs : s.area2 ≠ 0) (ht : t.area2 ≠ 0)
    (h : s.vertsWithin t = true) (q : Point ℚ) : s.combine q = t.combine q := by
  simp only [Face.vertsWithin, List.all_eq_true, decide_eq_true_eq] at h
  have h0 := Face.combine_of_mem_verts t ht s.v0 (h _ (by simp [Face.verts]))
  have h1 := Face.combine_of_mem_verts t ht s.v1 (h _ (by simp [Face.verts]))
  have h2 := Face.combine_of_mem_verts t ht s.v2 (h _ (by simp [Face.verts]))
  rw [Face.combine_affine t s.v0.p s.v1.p s.v2.p q _ _ _ (Face.weight_sum s q hs)
    (Face.recon_x s q hs) (Face.recon_y s q hs), h0, h1, h2, Face.combine_eq]

theorem agree_of_compatible (s t : Face) (hs : s.area2 ≠ 0) (ht : t.area2 ≠ 0)
    (hc : compatible s t = true)
    (V1 : ∀ b ∈ t.verts, s.contains b.p = true → b ∈ s.verts)
    (V2 : ∀ a ∈ s.verts, t.contains a.p = true → a ∈ t.verts)
    (q : Point ℚ) (hqs : s.contains q = true) (hqt : t.contains q = true) :
    s.combine q = t.combine q := by
  simp only [compatible, Bool.or_eq_true, Bool.and_eq_true] at hc
  rcases hc with (h | h) | h
  · exact agree_of_vertsWithin s t hs ht h.1 q
  · exact agree_of_separatedFrom s t hs ht h V1 V2 q hqs hqt
  · exact (agree_of_separatedFrom t s ht hs h V2 V1 q hqt hqs).symm

theorem Triangulation.wellFormed_iff (T : Triangulation) :
    T.wellFormed = true ↔
      (∀ t ∈ T.faces, t.area2 ≠ 0) ∧
      (∀ t ∈ T.faces, ∀ a ∈ t.verts, a ∈ T.vertices) ∧
      (∀ t ∈ T.faces, ∀ v ∈ T.vertices, t.contains v.p = true → v ∈ t.verts) ∧
      (∀ s ∈ T.faces, ∀ t ∈ T.faces, compatible s t = true) := by
  simp only [Triangulation.wellFormed, vertexFree, Bool.and_eq_true, List.all_eq_true,
    decide_eq_true_eq, Bool.or_eq_true, Bool.not_eq_true', and_assoc]
  constructor
  · rintro ⟨h1, h2, h3, h4⟩
    refine ⟨h1, h2, fun t ht v hv hc => ?_, h4⟩
    rcases h3 t ht v hv with h | h
    · rw [hc] at h; cases h
    · exact h
  · rintro ⟨h1, h2, h3, h4⟩
    refine ⟨h1, h2, fun t ht v hv => ?_, h4⟩
    cases hc : t.contains v.p
    · exact Or.inl rfl
    · exact Or.inr (h3 t ht v hv hc)

theorem faces_agree (T : Triangulation) (hT : T.wellFormed = true) (s t : Face)
    (hs : s ∈ T.faces) (ht : t ∈ T.faces) (q : Point ℚ)
    (hqs : s.contains q = true) (hqt : t.contains q = true) :
    s.combine q = t.combine q := by
  obtain ⟨h1, h2, h3, h4⟩ := (Triangulation.wellFormed_iff T).1 hT
  refine agree_of_compatible s t (h1 s hs) (h1 t ht) (h4 s hs t ht) ?_ ?_ q hqs hqt
  · intro b hb hc
    exact h3 s hs b (h2 t ht b hb) hc
  · intro a ha hc
    exact h3 t ht a (h2 s hs a ha) hc

theorem interp_point_eq_combine (T : Triangulation) (hT : T.wellFormed = true) (t : Face)
    (ht : t ∈ T.faces) (q : Point ℚ) (hq : t.contains q = true) :
    interp_point T q = .value (t.combine q) := by
  cases hl : locate T q with
  | none =>
    simp only [locate, List.find?_eq_none] at hl
    exact absurd hq (hl t ht)
  | some s =>
    simp only [interp_point, hl]
    simp only [locate] at hl
    have hs : s ∈ T.faces := List.mem_of_find?_eq_some hl
    have hqs : s.contains q = true := List.find?_some (p := fun (u : Face) => u.contains q) hl
    rw [faces_agree T hT s t hs ht q hqs hq]

end Triangulations

section Insertion

theorem mem_pairs {α : Type} (l : List α) (b c : α) (h : (b, c) ∈ pairs l) :
    b ∈ l ∧ c ∈ l := by
  induction l with
  | nil => simp [pairs] at h
  | cons x more ih =>
    simp only [pairs, List.mem_append, List.mem_map, Prod.mk.injEq] at h
    rcases h with ⟨y, hy, rfl, rfl⟩ | h
    · exact ⟨List.mem_cons_self _ _, List.mem_cons_of_mem _ hy⟩
    · exact ⟨List.mem_cons_of_mem _ (ih h).1, List.mem_cons_of_mem _ (ih h).2⟩

theorem mem_triples {α : Type} (l : List α) (a b c : α) (h : (a, b, c) ∈ triples l) :
    a ∈ l ∧ b ∈ l ∧ c ∈ l := by
  induction l with
  | nil => simp [triples] at h
  | cons x rest ih =>
    simp only [triples, List.mem_append, List.mem_map, Prod.mk.injEq] at h
    rcases h with ⟨⟨y, z⟩, hyz, rfl, rfl, rfl⟩ | h
    · obtain ⟨hy, hz⟩ := mem_pairs rest y z hyz
      exact ⟨List.mem_cons_self _ _, List.mem_cons_of_mem _ hy, List.mem_cons_of_mem _ hz⟩
    · obtain ⟨ha, hb, hc⟩ := ih h
      exact ⟨List.mem_cons_of_mem _ ha, List.mem_cons_of_mem _ hb, List.mem_cons_of_mem _ hc⟩

theorem mem_candidates (vs : List Vertex) (t : Face) (h : t ∈ candidates vs) :
    t.area2 ≠ 0 ∧ emptyCircle vs t = true ∧ vertexFree vs t = true
      ∧ ∀ a ∈ t.verts, a ∈ vs := by
  simp only [candidates, List.mem_filter, List.mem_map, Bool.and_eq_true,
    decide_eq_true_eq] at h
  obtain ⟨⟨⟨a, b, c⟩, habc, rfl⟩, ⟨h1, h2⟩, h3⟩ := h
  obtain ⟨ha, hb, hc⟩ := mem_triples vs a b c habc
  refine ⟨h1, h2, h3, ?_⟩
  intro v hv
  simp only [Face.verts, List.mem_cons, List.mem_singleton, List.not_mem_nil, or_false] at hv
  rcases hv with rfl | rfl | rfl
  · exact ha
  · exact hb
  · exact hc

theorem compatible_self (t : Face) : compatible t t = true := by
  simp [compatible, Face.vertsWithin]

theorem compatible_symm (s t : Face) (h : compatible s t = true) : compatible t s = true := by
  simp only [compatible, Bool.or_eq_true, Bool.and_eq_true] at h ⊢
  tauto

theorem selectFaces_spec (cs kept : List Face)
    (hk : ∀ s ∈ kept, ∀ t ∈ kept, compatible s t = true) :
    (∀ t ∈ selectFaces cs kept, t ∈ kept ∨ t ∈ cs) ∧
    (∀ s ∈ selectFaces cs kept, ∀ t ∈ selectFaces cs kept, compatible s t = true) := by
  induction cs generalizing kept with
  | nil => exact ⟨fun t ht => Or.inl ht, hk⟩
  | cons c cs ih =>
    simp only [selectFaces]
    split
    · rename_i hall
      simp only [List.all_eq_true] at hall
      have hk2 : ∀ s ∈ kept ++ [c], ∀ t ∈ kept ++ [c], compatible s t = true := by
        intro s hs t ht
        simp only [List.mem_append, List.mem_singleton] at hs ht
        rcases hs with hs | rfl <;> rcases ht with ht | rfl
        · exact hk s hs t ht
        · exact hall s hs
        · exact compatible_symm _ _ (hall t ht)
        · exact compatible_self _
      obtain ⟨h1, h2⟩ := ih (kept ++ [c]) hk2
      refine ⟨fun t ht => ?_, h2⟩
      rcases h1 t ht with h | h
      · simp only [List.mem_append, List.mem_singleton] at h
        rcases h with h | rfl
        · exact Or.inl h
        · exact Or.inr (List.mem_cons_self _ _)
      · exact Or.inr (List.mem_cons_of_mem _ h)
    · obtain ⟨h1, h2⟩ := ih kept hk
      refine ⟨fun t ht => ?_, h2⟩
      rcases h1 t ht with h | h
      · exact Or.inl h
      · exact Or.inr (List.mem_cons_of_mem _ h)

theorem delaunayFaces_spec (vs : List Vertex) :
    (∀ t ∈ delaunayFaces vs, t ∈ candidates vs) ∧
    (∀ s ∈ delaunayFaces vs, ∀ t ∈ delaunayFaces vs, compatible s t = true) := by
  obtain ⟨h1, h2⟩ := selectFaces_spec (candidates vs) [] (by simp)
  refine ⟨fun t ht => ?_, h2⟩
  rcases h1 t ht with h | h
  · simp at h
  · exact h

theorem insert_point_wellFormed (T : Triangulation) (p : Point ℚ) (f : ℚ)
    (T2 : Triangulation) (h : insert_point T p f = some T2) :
    T2.wellFormed = true ∧ ∀ t ∈ T2.faces, emptyCircle T2.vertices t = true := by
  unfold insert_point at h
  split at h
  · cases h
  · injection h with h
    subst h
    obtain ⟨h1, h2⟩ := delaunayFaces_spec (T.vertices ++ [⟨p, f⟩])
    refine ⟨(Triangulation.wellFormed_iff _).2 ⟨?_, ?_, ?_, h2⟩, ?_⟩
    · intro t ht
      exact (mem_candidates _ t (h1 t ht)).1
    · intro t ht
      exact (mem_candidates _ t (h1 t ht)).2.2.2
    · intro t ht v hv hc
      have h3 := (mem_candidates _ t (h1 t ht)).2.2.1
      simp only [vertexFree, List.all_eq_true, Bool.or_eq_true, Bool.not_eq_true',
        decide_eq_true_eq] at h3
      rcases h3 v hv with h | h
      · rw [hc] at h; cases h
      · exact h
    · intro t ht
      exact (mem_candidates _ t (h1 t ht)).2.1

theorem empty_wellFormed : Triangulation.empty.wellFormed = true := by
  simp [Triangulation.wellFormed, Triangulation.empty]

theorem scenario_eq :
    scenario = some ⟨[⟨⟨0, 0⟩, 0⟩, ⟨⟨1, 0⟩, 1⟩, ⟨⟨0, 1⟩, 1⟩],
      [⟨⟨⟨0, 0⟩, 0⟩, ⟨⟨1, 0⟩, 1⟩, ⟨⟨0, 1⟩, 1⟩⟩]⟩ := by
  simp [scenario, insert_point, Triangulation.empty, delaunayFaces, candidates, selectFaces,
    triples, pairs, emptyCircle, vertexFree, Face.contains, barycentric, Face.area2,
    Face.verts, orient, inCircle]

theorem scenario_wellFormed :
    Triangulation.wellFormed ⟨[⟨⟨0, 0⟩, 0⟩, ⟨⟨1, 0⟩, 1⟩, ⟨⟨0, 1⟩, 1⟩],
      [⟨⟨⟨0, 0⟩, 0⟩, ⟨⟨1, 0⟩, 1⟩, ⟨⟨0, 1⟩, 1⟩⟩]⟩ = true := by
  simp [Triangulation.wellFormed, vertexFree, compatible, Face.vertsWithin,
    Face.verts, Face.area2, orient]

end Insertion

section Interp

theorem combine_eq_of_affine (t : Face) (q : Point ℚ) (h : t.area2 ≠ 0) (α β γ : ℚ)
    (h0 : α * t.v0.p.x + β * t.v0.p.y + γ = t.v0.f)
    (h1 : α * t.v1.p.x + β * t.v1.p.y + γ = t.v1.f)
    (h2 : α * t.v2.p.x + β * t.v2.p.y + γ = t.v2.f) :
    t.combine q = α * q.x + β * q.y + γ := by
  simp only [Face.combine, barycentric]
  rw [← h0, ← h1, ← h2]
  field_simp
  simp only [Face.area2, orient]
  ring

theorem combine_is_affine (t : Face) (h : t.area2 ≠ 0) (r : Point ℚ) :
    t.combine r = (t.combine ⟨1, 0⟩ - t.combine ⟨0, 0⟩) * r.x
      + (t.combine ⟨0, 1⟩ - t.combine ⟨0, 0⟩) * r.y + t.combine ⟨0, 0⟩ := by
  have h2 : orient t.v0.p t.v1.p t.v2.p ≠ 0 := h
  simp only [Face.combine, barycentric, Face.area2]
  field_simp
  simp only [orient]
  ring

/-- C7: in every valid triangulation, and every triangulation built by `insert`
is valid, for every query point inside or on the boundary of a triangle `t`,
`interp` returns the barycentric-weighted combination of the function values of
the three vertices of `t`; the weights sum to 1; that combination is an affine
function of the query that takes the vertex values at the three vertices, and
every affine function doing so has the value returned. After inserting (0,0),
(1,0), (0,1) with values 0, 1, 1, `interp((1/2, 1/2))` is 1. -/
theorem C7_interp_is_the_affine_interpolant :
    (∀ (T : Triangulation) (q : Point ℚ), T.wellFormed = true →
      ∀ t ∈ T.faces, t.contains q = true →
        interp_point T q = .value
          ((barycentric t q).1 * t.v0.f + (barycentric t q).2.1 * t.v1.f
            + (barycentric t q).2.2 * t.v2.f) ∧
        (barycentric t q).1 + (barycentric t q).2.1 + (barycentric t q).2.2 = 1 ∧
        (∃ α β γ : ℚ,
          α * t.v0.p.x + β * t.v0.p.y + γ = t.v0.f ∧
          α * t.v1.p.x + β * t.v1.p.y + γ = t.v1.f ∧
          α * t.v2.p.x + β * t.v2.p.y + γ = t.v2.f ∧
          interp_point T q = .value (α * q.x + β * q.y + γ)) ∧
        (∀ α β γ : ℚ,
          α * t.v0.p.x + β * t.v0.p.y + γ = t.v0.f →
          α * t.v1.p.x + β * t.v1.p.y + γ = t.v1.f →
          α * t.v2.p.x + β * t.v2.p.y + γ = t.v2.f →
          interp_point T q = .value (α * q.x + β * q.y + γ))) ∧
    Triangulation.empty.wellFormed = true ∧
    (∀ (T : Triangulation) (p : Point ℚ) (f : ℚ) (T2 : Triangulation),
      insert_point T p f = some T2 →
        T2.wellFormed = true ∧ ∀ t ∈ T2.faces, emptyCircle T2.vertices t = true) ∧
    scenario.map (fun T => interp_point T ⟨1 / 2, 1 / 2⟩) = some (.value 1) := by
  refine ⟨?_, empty_wellFormed, insert_point_wellFormed, ?_⟩
  · intro T q hT t ht hc
    have ha : t.area2 ≠ 0 := ((Face.contains_iff t q).1 hc).1
    have hval : interp_point T q = .value (t.combine q) :=
      interp_point_eq_combine T hT t ht q hc
    have huniq : ∀ α β γ : ℚ,
        α * t.v0.p.x + β * t.v0.p.y + γ = t.v0.f →
        α * t.v1.p.x + β * t.v1.p.y + γ = t.v1.f →
        α * t.v2.p.x + β * t.v2.p.y + γ = t.v2.f →
        interp_point T q = .value (α * q.x + β * q.y + γ) := by
      intro α β γ h0 h1 h2
      rw [hval, combine_eq_of_affine t q ha α β γ h0 h1 h2]
    refine ⟨hval, Face.weight_sum t q ha, ?_, huniq⟩
    have g0 := (combine_is_affine t ha t.v0.p).symm.trans (Face.combine_vert t ha 0)
    have g1 := (combine_is_affine t ha t.v1.p).symm.trans (Face.combine_vert t ha 1)
    have g2 := (combine_is_affine t ha t.v2.p).symm.trans (Face.combine_vert t ha 2)
    exact ⟨_, _, _, g0, g1, g2, huniq _ _ _ g0 g1 g2⟩
  · rw [scenario_eq]
    simp [interp_point, locate, Face.contains, Face.combine, barycentric, Face.area2, orient]
    norm_num

/-- C7, witness: the triangulation of the scenario and the query (1/2, 1/2),
where the affine function x + y takes the vertex values 0, 1, 1. -/
theorem C7_interp_witness :
    Triangulation.wellFormed ⟨[⟨⟨0, 0⟩, 0⟩, ⟨⟨1, 0⟩, 1⟩, ⟨⟨0, 1⟩, 1⟩],
        [⟨⟨⟨0, 0⟩, 0⟩, ⟨⟨1, 0⟩, 1⟩, ⟨⟨0, 1⟩, 1⟩⟩]⟩ = true ∧
    Face.contains ⟨⟨⟨0, 0⟩, 0⟩, ⟨⟨1, 0⟩, 1⟩, ⟨⟨0, 1⟩, 1⟩⟩ ⟨1 / 2, 1 / 2⟩ = true ∧
    interp_point ⟨[⟨⟨0, 0⟩, 0⟩, ⟨⟨1, 0⟩, 1⟩, ⟨⟨0, 1⟩, 1⟩],
        [⟨⟨⟨0, 0⟩, 0⟩, ⟨⟨1, 0⟩, 1⟩, ⟨⟨0, 1⟩, 1⟩⟩]⟩ ⟨1 / 2, 1 / 2⟩
      = .value (1 * (1 / 2) + 1 * (1 / 2) + 0) := by
  have hc : Face.contains ⟨⟨⟨0, 0⟩, 0⟩, ⟨⟨1, 0⟩, 1⟩, ⟨⟨0, 1⟩, 1⟩⟩ ⟨1 / 2, 1 / 2⟩ = true := by
    simp [Face.contains, barycentric, Face.area2, orient]
    norm_num
  obtain ⟨-, -, -, huniq⟩ :=
    C7_interp_is_the_affine_interpolant.1
      ⟨[⟨⟨0, 0⟩, 0⟩, ⟨⟨1, 0⟩, 1⟩, ⟨⟨0, 1⟩, 1⟩],
        [⟨⟨⟨0, 0⟩, 0⟩, ⟨⟨1, 0⟩, 1⟩, ⟨⟨0, 1⟩, 1⟩⟩]⟩ ⟨1 / 2, 1 / 2⟩ scenario_wellFormed
      ⟨⟨⟨0, 0⟩, 0⟩, ⟨⟨1, 0⟩, 1⟩, ⟨⟨0, 1⟩, 1⟩⟩ (List.mem_singleton.2 rfl) hc
  exact ⟨scenario_wellFormed, hc,
    huniq 1 1 0 (by norm_num) (by norm_num) (by norm_num)⟩

end Interp

end DelaunayPy
